import Mathlib

/-!
Verification development for the OpenSpec task parser
(`svao/orchestrator/parser.py`) and the dependency inference engine
(`svao/orchestrator/inference.py`).

The Python code is shallowly embedded:

* Python `int` values arising here are digit runs, so numeric parts are `Nat`;
  confidences and thresholds are `Int`.
* A sort key produced by `task_id_sort_key` is a Python tuple mixing ints and
  a string.  It is modelled as `List PyVal`.  Comparing an `int` with a `str`
  raises `TypeError` in Python 3; comparisons are therefore partial and run in
  `Except Unit`, where `Except.error ()` models the raised `TypeError`.
* Python `list.sort`/`sorted` with a key function is a stable sort using `<`
  on the keys.  It is modelled by a stable insertion sort in `Except Unit`:
  on inputs whose keys are pairwise comparable this computes exactly the
  stable sort, and an incomparable pair encountered while inserting models
  the `TypeError` the sort would raise.
* Python `dict` / `collections.defaultdict(list)` preserve key insertion
  order; they are modelled as association lists with in-place update.
* `extract_keywords` returns a Python `set`; only its membership and its
  iteration order matter downstream.  The set is modelled as a duplicate-free
  list in the fixed order of the (insertion-ordered) pattern table.
* Strings are compared and transformed code-point-wise; `str.lower` and
  `str.strip` are modelled on ASCII, which covers every string the claims
  touch.
-/

set_option maxHeartbeats 1000000

namespace Svao

/-! ## Python tuple values and comparison (`inference.py` sort keys) -/

/-- An element of a Python sort-key tuple: an int or a str. -/
inductive PyVal where
  | vI : Nat → PyVal
  | vS : String → PyVal
deriving DecidableEq

/-- Python `==` on tuple elements: mixed int/str compare unequal (no error). -/
def pvEqB : PyVal → PyVal → Bool
  | .vI m, .vI n => m == n
  | .vS s, .vS t => s == t
  | _, _ => false

/-- Python `<` on tuple elements: mixed int/str raises `TypeError`. -/
def pvLtE : PyVal → PyVal → Except Unit Bool
  | .vI m, .vI n => .ok (decide (m < n))
  | .vS s, .vS t => .ok (decide (s < t))
  | _, _ => .error ()

/-- Python `<` on tuples: scan for the first pair that is not `==`, compare it
with `<` (which may raise), otherwise compare lengths. -/
def tupLt : List PyVal → List PyVal → Except Unit Bool
  | [], [] => .ok false
  | [], _ :: _ => .ok true
  | _ :: _, [] => .ok false
  | a :: as, b :: bs => if pvEqB a b then tupLt as bs else pvLtE a b

/-! ## Identifier model (`parse_task_id`, `task_id_sort_key`,
`get_subsection_key`, `extract_stem`, `extract_keywords`) -/

/-- `str.split(sep)` for a single-character separator. -/
def splitOnCharAux (sep : Char) : List Char → List Char → List (List Char)
  | [], acc => [acc.reverse]
  | c :: cs, acc =>
    if c = sep then acc.reverse :: splitOnCharAux sep cs []
    else splitOnCharAux sep cs (c :: acc)

def splitOnChar (sep : Char) (s : String) : List String :=
  (splitOnCharAux sep s.toList []).map String.mk

def isLowerAZ (c : Char) : Bool := decide ('a' ≤ c) && decide (c ≤ 'z')

/-- Value of a digit run, as computed by Python `int`. -/
def digitsVal (cs : List Char) : Nat :=
  cs.foldl (fun n c => n * 10 + (c.toNat - '0'.toNat)) 0

/-- One dot-separated segment of a task ID.  Full match of `^(\d+)([a-z]?)$`
gives the digits and the optional letter; otherwise the fallback `^(\d+)`
takes the leading digit run; a segment with no leading digits is skipped. -/
def segParse (s : String) : Option (Nat × Option Char) :=
  let cs := s.toList
  let ds := cs.takeWhile Char.isDigit
  let rest := cs.dropWhile Char.isDigit
  if ds.isEmpty then none
  else
    match rest with
    | [] => some (digitsVal ds, none)
    | [c] => if isLowerAZ c then some (digitsVal ds, some c) else some (digitsVal ds, none)
    | _ => some (digitsVal ds, none)

/-- `parse_task_id`: numeric parts and letter suffix.  A fully matching
segment with a letter overwrites the suffix (the source keeps the last such
letter); fallback segments leave the suffix unchanged. -/
def parse_task_id (taskId : String) : List Nat × String :=
  (splitOnChar '.' taskId).foldl
    (fun acc part =>
      match segParse part with
      | none => acc
      | some (n, none) => (acc.1 ++ [n], acc.2)
      | some (n, some c) => (acc.1 ++ [n], String.mk [c]))
    ([], "")

/-- `task_id_sort_key`: the tuple `(*numeric_parts, letter_suffix)`. -/
def task_id_sort_key (taskId : String) : List PyVal :=
  let p := parse_task_id taskId
  p.1.map PyVal.vI ++ [PyVal.vS p.2]

/-- `get_subsection_key`. -/
def get_subsection_key (taskId : String) : String :=
  let p := parse_task_id taskId
  if p.1.length ≥ 2 then
    String.intercalate "." (p.1.dropLast.map (fun n => toString n))
  else
    match p.1 with
    | [] => ""
    | n :: _ => toString n

def listStartsWith : List Char → List Char → Bool
  | [], _ => true
  | _ :: _, [] => false
  | a :: as, b :: bs => a == b && listStartsWith as bs

def strEndsWith (s e : String) : Bool :=
  listStartsWith e.toList.reverse s.toList.reverse

/-- The extensions stripped by `extract_stem`'s regex
`\.(ts|tsx|js|jsx|vue|py|go)$` (with the leading dot). -/
def stemExts : List String := [".ts", ".tsx", ".js", ".jsx", ".vue", ".py", ".go"]

/-- ASCII model of `str.lower`. -/
def pyLower (s : String) : String := String.mk (s.toList.map Char.toLower)

/-- `extract_stem`: basename, recognized extension stripped, lowercased.
At most one of the alternatives can match the `$`-anchored regex, so the
substitution removes exactly one matching suffix, if any. -/
def extract_stem (filepath : String) : String :=
  let name := (splitOnChar '/' filepath).getLastD ""
  let base :=
    match stemExts.find? (fun e => strEndsWith name e) with
    | some e => String.mk (name.toList.take (name.toList.length - e.toList.length))
    | none => name
  pyLower base

/-- Python substring test (`needle in hay`) for nonempty needles. -/
def substrAt : List Char → List Char → Bool
  | needle, [] => needle.isEmpty
  | needle, c :: cs => listStartsWith needle (c :: cs) || substrAt needle cs

def strContains (hay needle : String) : Bool := substrAt needle.toList hay.toList

/-- The static keyword table of `extract_keywords`, in source order. -/
def kwPatterns : List (String × List String) :=
  [("schema", ["schema", "model", "table", "entity"]),
   ("type", ["type", "interface", "typedef"]),
   ("mutation", ["mutation", "create", "update", "delete", "write"]),
   ("query", ["query", "read", "fetch", "get", "list"]),
   ("component", ["component", "view", "page", "ui"]),
   ("test", ["test", "spec", "coverage"]),
   ("api", ["api", "endpoint", "route", "handler"])]

/-- `extract_keywords`: the matched categories.  The source returns a Python
set; it is modelled as the duplicate-free list in table order. -/
def extract_keywords (description : String) : List String :=
  let descLower := pyLower description
  kwPatterns.foldl
    (fun acc p => if p.2.any (fun w => strContains descLower w) then acc ++ [p.1] else acc)
    []

/-! ## Inference engine data model -/

structure InferredDependency where
  from_task : String
  to_task : String
  confidence : Int
  reason : String
deriving DecidableEq

/-- A task as consumed by the engine (`task['id']`,
`task.get('description', '')`, `task.get('files', [])`). -/
structure TaskIn where
  id : String
  description : String
  files : List String
deriving DecidableEq

structure SectionIn where
  number : Nat
  tasks : List TaskIn
deriving DecidableEq

structure ParsedData where
  sections : List SectionIn
deriving DecidableEq

structure InferResult where
  auto_apply : List InferredDependency
  pending_review : List InferredDependency
deriving DecidableEq

/-! ## Ordered dictionaries as association lists -/

/-- `defaultdict(list)`-style append: `d[k].append(v)`, creating the key at
the end on first use. -/
def upsert (k : String) (v : String) : List (String × List String) → List (String × List String)
  | [] => [(k, [v])]
  | p :: rest => if p.1 = k then (p.1, p.2 ++ [v]) :: rest else p :: upsert k v rest

/-- Build a grouping dict from (key, value) pairs in order. -/
def groupIds (pairs : List (String × String)) : List (String × List String) :=
  pairs.foldl (fun acc p => upsert p.1 p.2 acc) []

/-- Plain `dict` assignment `d[k] = v` (keeps the key's position). -/
def dictSet (m : List (String × List String)) (k : String) (v : List String) :
    List (String × List String) :=
  match m with
  | [] => [(k, v)]
  | p :: rest => if p.1 = k then (p.1, v) :: rest else p :: dictSet rest k v

/-- `d.get(k, default)`. -/
def lookupD (m : List (String × List String)) (k : String) (d : List String) : List String :=
  match m.find? (fun p => decide (p.1 = k)) with
  | some p => p.2
  | none => d

/-! ## Monadic list helpers (Python loops that may raise) -/

/-- Collect the results of a possibly-raising loop body, in order. -/
def listFlatMapM {α β : Type} (f : α → Except Unit (List β)) : List α → Except Unit (List β)
  | [] => .ok []
  | a :: as =>
    match f a with
    | .error e => .error e
    | .ok l1 =>
      match listFlatMapM f as with
      | .error e => .error e
      | .ok l2 => .ok (l1 ++ l2)

/-- `task_id_sort_key` comparison between two raw IDs. -/
def keyLt (a b : String) : Except Unit Bool :=
  tupLt (task_id_sort_key a) (task_id_sort_key b)

/-- Insert into an already sorted list, after all elements not greater
(the stable position). -/
def insertSorted (x : String) : List String → Except Unit (List String)
  | [] => .ok [x]
  | y :: ys =>
    match keyLt x y with
    | .error e => .error e
    | .ok true => .ok (x :: y :: ys)
    | .ok false =>
      match insertSorted x ys with
      | .error e => .error e
      | .ok rest => .ok (y :: rest)

def sortAux (acc : List String) : List String → Except Unit (List String)
  | [] => .ok acc
  | x :: xs =>
    match insertSorted x acc with
    | .error e => .error e
    | .ok acc2 => sortAux acc2 xs

/-- `sorted(l, key=task_id_sort_key)` as a stable insertion sort. -/
def sortByKeyE (l : List String) : Except Unit (List String) :=
  sortAux [] l

/-! ## The four inference strategies -/

def subsectionReason (k : String) : String :=
  "subsection order: sequential within " ++ k

/-- Edges from each element to its immediate predecessor, in order. -/
def consecEdges (k : String) : List String → List InferredDependency
  | [] => []
  | [_] => []
  | a :: b :: rest =>
    ⟨b, a, 90, subsectionReason k⟩ :: consecEdges k (b :: rest)

/-- `infer_from_subsection_order`. -/
def infer_from_subsection_order (tasks : List TaskIn) :
    Except Unit (List InferredDependency) :=
  let groups := groupIds (tasks.map (fun t => (get_subsection_key t.id, t.id)))
  listFlatMapM
    (fun kg =>
      if kg.2.length < 2 then .ok []
      else
        match sortByKeyE kg.2 with
        | .error e => .error e
        | .ok sorted => .ok (consecEdges kg.1 sorted))
    groups

def filePatternReason (stem : String) : String :=
  "file pattern: shared stem '" ++ stem ++ "'"

/-- `for i, later in enumerate(sorted_ids[1:], 1): for earlier in sorted_ids[:i]`. -/
def fanInAux (stem : String) (earlier : List String) :
    List String → List InferredDependency
  | [] => []
  | x :: rest =>
    earlier.map (fun e => ⟨x, e, 85, filePatternReason stem⟩)
      ++ fanInAux stem (earlier ++ [x]) rest

def fanInEdges (stem : String) : List String → List InferredDependency
  | [] => []
  | x :: rest => fanInAux stem [x] rest

/-- `infer_from_file_patterns`.  Note that the stem groups collect one
occurrence of the task ID per file, so a task listing two files with the
same stem occurs twice in its group. -/
def infer_from_file_patterns (tasks : List TaskIn) :
    Except Unit (List InferredDependency) :=
  let groups := groupIds (tasks.flatMap (fun t => t.files.map (fun f => (extract_stem f, t.id))))
  listFlatMapM
    (fun kg =>
      if kg.2.length > 1 then
        match sortByKeyE kg.2 with
        | .error e => .error e
        | .ok sorted => .ok (fanInEdges kg.1 sorted)
      else .ok [])
    groups

/-- The static `keyword_deps` rule table, in source order. -/
def keyword_deps : List (String × List String) :=
  [("mutation", ["schema", "type"]),
   ("query", ["schema", "type"]),
   ("component", ["type", "query", "mutation"]),
   ("test", []),
   ("api", ["schema", "type"])]

def keywordReason (kw req : String) : String :=
  "keyword: '" ++ kw ++ "' typically depends on '" ++ req ++ "'"

/-- `task_keywords` dict: keyed by task ID, later tasks overwrite. -/
def taskKeywordsMap (tasks : List TaskIn) : List (String × List String) :=
  tasks.foldl (fun acc t => dictSet acc t.id (extract_keywords t.description)) []

/-- `keyword_to_tasks` dict: category to task IDs in traversal order. -/
def keywordToTasksMap (tasks : List TaskIn) : List (String × List String) :=
  tasks.foldl
    (fun acc t => (extract_keywords t.description).foldl (fun a kw => upsert kw t.id a) acc)
    []

/-- Loop body for one `(task, kw, req_kw, dep_task_id)` combination. -/
def kwEdgeFor (tid kw req depId : String) : Except Unit (List InferredDependency) :=
  if depId ≠ tid then
    match tupLt (task_id_sort_key depId) (task_id_sort_key tid) with
    | .error e => .error e
    | .ok true => .ok [⟨tid, depId, 50, keywordReason kw req⟩]
    | .ok false => .ok []
  else .ok []

/-- `infer_from_keywords`. -/
def infer_from_keywords (tasks : List TaskIn) :
    Except Unit (List InferredDependency) :=
  let ktt := keywordToTasksMap tasks
  let tkw := taskKeywordsMap tasks
  listFlatMapM
    (fun t =>
      listFlatMapM
        (fun kw =>
          listFlatMapM
            (fun req =>
              match ktt.find? (fun p => decide (p.1 = req)) with
              | none => .ok []
              | some p => listFlatMapM (fun depId => kwEdgeFor t.id kw req depId) p.2)
            (lookupD keyword_deps kw []))
        (lookupD tkw t.id []))
    tasks

def sectionOrderReason (curr prev : Nat) : String :=
  "section order: section " ++ toString curr ++ " after section " ++ toString prev

/-- `infer_from_section_order`: adjacent sections, both with tasks. -/
def infer_from_section_order : List SectionIn → List InferredDependency
  | [] => []
  | [_] => []
  | s1 :: s2 :: rest =>
    (match s1.tasks.getLast?, s2.tasks.head? with
     | some tl, some th => [⟨th.id, tl.id, 25, sectionOrderReason s2.number s1.number⟩]
     | _, _ => []) ++ infer_from_section_order (s2 :: rest)

/-! ## Merge, dedup and thresholding (`infer_dependencies`) -/

def allTasks (p : ParsedData) : List TaskIn :=
  p.sections.flatMap (fun s => s.tasks)

/-- All candidate edges, in the fixed strategy order: subsection order,
file patterns, keywords, section order. -/
def inferCandidates (p : ParsedData) : Except Unit (List InferredDependency) :=
  match infer_from_subsection_order (allTasks p) with
  | .error e => .error e
  | .ok d1 =>
    match infer_from_file_patterns (allTasks p) with
    | .error e => .error e
    | .ok d2 =>
      match infer_from_keywords (allTasks p) with
      | .error e => .error e
      | .ok d3 => .ok (d1 ++ d2 ++ d3 ++ infer_from_section_order p.sections)

def depKey (d : InferredDependency) : String × String := (d.from_task, d.to_task)

/-- One step of the dedup loop: replace the pair's entry only on strictly
greater confidence, else append a fresh entry at the end. -/
def dedupStep (acc : List InferredDependency) (d : InferredDependency) :
    List InferredDependency :=
  if ∃ e ∈ acc, depKey e = depKey d then
    acc.map (fun e => if depKey e = depKey d ∧ e.confidence < d.confidence then d else e)
  else acc ++ [d]

/-- The `unique_deps` dict, taken in `.values()` (insertion) order. -/
def dedup (ds : List InferredDependency) : List InferredDependency :=
  ds.foldl dedupStep []

/-- `infer_dependencies`: collect, dedup, then partition by the threshold. -/
def infer_dependencies (p : ParsedData) (threshold : Int) : Except Unit InferResult :=
  match inferCandidates p with
  | .error e => .error e
  | .ok ds =>
    .ok ⟨(dedup ds).filter (fun d => decide (threshold ≤ d.confidence)),
         (dedup ds).filter (fun d => !decide (threshold ≤ d.confidence))⟩

/-! ## Task document parser (`parser.py`)

The two source regexes are `MULTILINE`-anchored at line starts and ends, so
they are modelled per line after splitting the document on newlines.  (The
`\s*` between a task's description and its optional annotations could in the
source also absorb an annotation written on a following line; no claim
depends on that corner and no input used below exercises it.) -/

structure Task where
  id : String
  description : String
  files : List String
  depends_on : List String
  agent_type : Option String
  complexity : String
  completed : Bool
deriving DecidableEq

structure Section where
  number : Nat
  name : String
  tasks : List Task
deriving DecidableEq

structure ParseResult where
  sections : List Section
  errors : List String
  warnings : List String
deriving DecidableEq

/-- Python `\s` on ASCII. -/
def isPyWs (c : Char) : Bool :=
  c == ' ' || c == '\t' || c == '\n' || c == '\r' || c == '\x0b' || c == '\x0c'

/-- ASCII model of `str.strip()`. -/
def pyStrip (s : String) : String :=
  String.mk (((s.toList.dropWhile isPyWs).reverse.dropWhile isPyWs).reverse)

/-- Match a literal prefix, returning the remainder. -/
def dropLit : List Char → List Char → Option (List Char)
  | [], cs => some cs
  | _ :: _, [] => none
  | p :: ps, c :: cs => if c = p then dropLit ps cs else none

def takeDigits (cs : List Char) : List Char × List Char :=
  (cs.takeWhile Char.isDigit, cs.dropWhile Char.isDigit)

/-- The ID part `(\d+\.\d+(?:\.\d+)?[a-z]?)` of the task regex, by maximal
munch.  The pattern continues with a literal space, and none of the shorter
backtracking alternatives can end before a space (they end on a digit, dot or
letter), so maximal munch is the only candidate. -/
def matchTaskId (cs : List Char) : Option (List Char × List Char) :=
  let d1 := takeDigits cs
  if d1.1.isEmpty then none
  else
    match d1.2 with
    | '.' :: r2 =>
      let d2 := takeDigits r2
      if d2.1.isEmpty then none
      else
        let third :=
          match d2.2 with
          | '.' :: r3 =>
            let d3 := takeDigits r3
            if d3.1.isEmpty then ([], d2.2) else ('.' :: d3.1, d3.2)
          | _ => ([], d2.2)
        let suf :=
          match third.2 with
          | c :: rest => if isLowerAZ c then ([c], rest) else (([] : List Char), third.2)
          | [] => ([], third.2)
        some (d1.1 ++ '.' :: d2.1 ++ third.1 ++ suf.1, suf.2)
    | _ => none

/-- One optional annotation `\s*\(KEYs?:\s*([^)]+)\)` (the `s?` only when
`plural`).  Within the group every quantifier resolves deterministically:
`[^)]+` must end at the first `)`, and when the text between `:` and `)` is
all whitespace the backtracking `\s*` leaves exactly its last character for
`[^)]+`. -/
def matchAnn (key : List Char) (plural : Bool) (cs : List Char) :
    Option (String × List Char) :=
  match cs.dropWhile isPyWs with
  | '(' :: r1 =>
    match dropLit key r1 with
    | none => none
    | some r2 =>
      let r3 :=
        match r2 with
        | 's' :: ':' :: r => if plural then some r else none
        | ':' :: r => some r
        | _ => none
      match r3 with
      | none => none
      | some r4 =>
        let content := r4.takeWhile (fun c => !(c == ')'))
        match r4.dropWhile (fun c => !(c == ')')) with
        | ')' :: r5 =>
          if content.isEmpty then none
          else
            let cap := content.dropWhile isPyWs
            let capture := if cap.isEmpty then content.drop (content.length - 1) else cap
            some (String.mk capture, r5)
        | _ => none
  | _ => none

/-- `(?:\s*\(complexity: ...\))?$`: try the group, then require end of line;
on failure fall back to the group being absent. -/
def matchOptComplexity (cs : List Char) : Option (Option String) :=
  match matchAnn "complexity".toList false cs with
  | some (cap, rest) =>
    if rest.isEmpty then some (some cap)
    else if cs.isEmpty then some none else none
  | none => if cs.isEmpty then some none else none

def matchOptAgent (cs : List Char) : Option (Option String × Option String) :=
  match matchAnn "agent".toList false cs with
  | some (cap, rest) =>
    match matchOptComplexity rest with
    | some c => some (some cap, c)
    | none => (matchOptComplexity cs).map (fun c => (none, c))
  | none => (matchOptComplexity cs).map (fun c => (none, c))

def matchOptDepends (cs : List Char) :
    Option (Option String × Option String × Option String) :=
  match matchAnn "depend".toList true cs with
  | some (cap, rest) =>
    match matchOptAgent rest with
    | some ac => some (some cap, ac)
    | none => (matchOptAgent cs).map (fun ac => (none, ac))
  | none => (matchOptAgent cs).map (fun ac => (none, ac))

def matchOptFiles (cs : List Char) :
    Option (Option String × Option String × Option String × Option String) :=
  match matchAnn "file".toList true cs with
  | some (cap, rest) =>
    match matchOptDepends rest with
    | some dac => some (some cap, dac)
    | none => (matchOptDepends cs).map (fun dac => (none, dac))
  | none => (matchOptDepends cs).map (fun dac => (none, dac))

/-- The lazy description `(.+?)`: grow the description one character at a
time until the annotation tail (and end of line) matches. -/
def matchDescOpts (descAcc : List Char) :
    List Char → Option (String × Option String × Option String × Option String × Option String)
  | [] => none
  | c :: rest =>
    let desc := descAcc ++ [c]
    match matchOptFiles rest with
    | some caps => some (String.mk desc, caps)
    | none => matchDescOpts desc rest

/-- The regex captures of one matched task line. -/
structure TaskMatch where
  completed : Bool
  id : String
  description : String
  filesAnn : Option String
  dependsAnn : Option String
  agentAnn : Option String
  complexityAnn : Option String
deriving DecidableEq

/-- Per-line model of the task regex. -/
def matchTaskLine (line : String) : Option TaskMatch :=
  match dropLit "- [".toList line.toList with
  | none => none
  | some r1 =>
    match r1 with
    | [] => none
    | st :: r2 =>
      if st = ' ' ∨ st = 'x' then
        match dropLit "] ".toList r2 with
        | none => none
        | some r3 =>
          match matchTaskId r3 with
          | none => none
          | some (idCs, r4) =>
            match r4 with
            | ' ' :: r5 =>
              match matchDescOpts [] r5 with
              | some (desc, fs, ds, ag, cx) =>
                some ⟨st = 'x', String.mk idCs, desc, fs, ds, ag, cx⟩
              | none => none
            | _ => none
      else none

/-- Per-line model of the section header regex `^## (\d+)\. (.+)$`. -/
def matchSectionHeader (line : String) : Option (Nat × String) :=
  match dropLit "## ".toList line.toList with
  | none => none
  | some r1 =>
    let d := takeDigits r1
    if d.1.isEmpty then none
    else
      match d.2 with
      | '.' :: ' ' :: r3 => if r3.isEmpty then none else some (digitsVal d.1, String.mk r3)
      | _ => none

/-- `[x.strip() for x in s.split(',')]`. -/
def pySplitComma (s : String) : List String :=
  (splitOnChar ',' s).map pyStrip

def filesWarning (taskId : String) : String :=
  "Task " ++ taskId ++ " missing (files: ...) annotation - agent routing may be less accurate"

def complexityWarning (taskId value : String) : String :=
  "Task " ++ taskId ++ " has invalid complexity '" ++ value ++ "', using 'medium'"

def sectionMismatchError (taskId : String) (secNum : Nat) : String :=
  "Task " ++ taskId ++ " in section " ++ toString secNum
    ++ " should start with '" ++ toString secNum ++ ".'"

/-- `int(task_id.split('.')[0])`.  The task regex guarantees the first
segment is a nonempty digit run, on which `int` is total. -/
def firstSegNat (s : String) : Nat :=
  digitsVal ((splitOnChar '.' s).headD "").toList

/-- The body of the per-task loop of `parse_tasks_md`: the `Task` record it
appends, the errors and the warnings it records, in order. -/
def processMatch (secNum : Nat) (m : TaskMatch) :
    Task × List String × List String :=
  let errs := if firstSegNat m.id ≠ secNum then [sectionMismatchError m.id secNum] else []
  let filesPart :=
    match m.filesAnn with
    | some fs => (pySplitComma fs, ([] : List String))
    | none => ([], [filesWarning m.id])
  let depends :=
    match m.dependsAnn with
    | some ds => pySplitComma ds
    | none => []
  let compPart :=
    match m.complexityAnn with
    | some c =>
      let c' := pyLower (pyStrip c)
      if c' = "low" ∨ c' = "medium" ∨ c' = "high" then (c', ([] : List String))
      else ("medium", [complexityWarning m.id c'])
    | none => ("medium", [])
  (⟨m.id, pyStrip m.description, filesPart.1, depends,
      m.agentAnn.map pyStrip, compPart.1, m.completed⟩,
   errs, filesPart.2 ++ compPart.2)

/-- All tasks, errors and warnings of one section's body lines, in order. -/
def processSection (secNum : Nat) (lines : List String) :
    List Task × List String × List String :=
  let ms := lines.filterMap matchTaskLine
  (ms.map (fun m => (processMatch secNum m).1),
   ms.flatMap (fun m => (processMatch secNum m).2.1),
   ms.flatMap (fun m => (processMatch secNum m).2.2))

/-- Split the document's lines into header blocks: each matched header with
the body lines up to the next header.  Lines before the first header are
skipped, exactly as `finditer` slices between header matches.  The fuel is
structural bookkeeping only: every step consumes at least one line, so fuel
equal to the number of lines (as passed by `splitSections`) never runs out. -/
def splitSectionsFuel : Nat → List String → List ((Nat × String) × List String)
  | 0, _ => []
  | _, [] => []
  | fuel + 1, l :: rest =>
    match matchSectionHeader l with
    | some hd =>
      ((hd, rest.takeWhile (fun l2 => (matchSectionHeader l2).isNone)))
        :: splitSectionsFuel fuel (rest.dropWhile (fun l2 => (matchSectionHeader l2).isNone))
    | none => splitSectionsFuel fuel rest

def splitSections (lines : List String) : List ((Nat × String) × List String) :=
  splitSectionsFuel lines.length lines

def noSectionsError : String :=
  "No sections found. Expected format: '## 1. Section Name'"

def emptySectionWarning (num : Nat) (name : String) : String :=
  "Section " ++ toString num ++ " '" ++ name ++ "' has no tasks"

/-- `parse_tasks_md`. -/
def parse_tasks_md (content : String) : ParseResult :=
  let blocks := splitSections (splitOnChar '\n' content)
  if blocks.isEmpty then ⟨[], [noSectionsError], []⟩
  else
    { sections := blocks.map (fun blk =>
        ⟨blk.1.1, pyStrip blk.1.2, (processSection blk.1.1 blk.2).1⟩)
      errors := blocks.flatMap (fun blk => (processSection blk.1.1 blk.2).2.1)
      warnings := blocks.flatMap (fun blk =>
        (processSection blk.1.1 blk.2).2.2
          ++ (if (processSection blk.1.1 blk.2).1.isEmpty
              then [emptySectionWarning blk.1.1 (pyStrip blk.1.2)] else [])) }

/-! ## Dependency validation (`validate_dependencies`) -/

def allTaskIds (sections : List Section) : List String :=
  sections.flatMap (fun s => s.tasks.map (fun t => t.id))

def unknownDepError (taskId dep : String) : String :=
  "Task " ++ taskId ++ " depends on unknown task '" ++ dep ++ "'"

/-- `validate_dependencies`: one error per unknown reference, in order. -/
def validate_dependencies (sections : List Section) : List String :=
  sections.flatMap (fun s =>
    s.tasks.flatMap (fun t =>
      t.depends_on.filterMap (fun d =>
        if d ∈ allTaskIds sections then none else some (unknownDepError t.id d))))

/-! ## Derived notions used by the statements -/

/-- `a` immediately precedes `b` in `l`. -/
def adjacentIn (a b : String) (l : List String) : Prop :=
  ∃ i, l[i]? = some a ∧ l[i + 1]? = some b

/-- The IDs grouped under subsection key `k`, in document order: this is what
the `defaultdict` group for `k` in `infer_from_subsection_order` holds. -/
def subsectionGroup (tasks : List TaskIn) (k : String) : List String :=
  ((tasks.map (fun t => (get_subsection_key t.id, t.id))).filter
      (fun q => decide (q.1 = k))).map Prod.snd

/-- The task-ID occurrences (one per listed file) whose file stem is `s`, in
traversal order: the `stem_to_task` group for `s`. -/
def stemOccurrences (tasks : List TaskIn) (s : String) : List String :=
  ((tasks.flatMap (fun t => t.files.map (fun f => (extract_stem f, t.id)))).filter
      (fun q => decide (q.1 = s))).map Prod.snd

/-- First element of maximal confidence (the dedup survivor for a pair). -/
def firstMax : List InferredDependency → Option InferredDependency
  | [] => none
  | d :: ds =>
    match firstMax ds with
    | none => some d
    | some e => if d.confidence < e.confidence then some e else some d

/-- All candidates carrying a given ordered pair, in merged order. -/
def candidatesFor (k : String × String) (ds : List InferredDependency) :
    List InferredDependency :=
  ds.filter (fun d => decide (depKey d = k))

/-- The entry kept for a pair after one more candidate arrives: the previous
entry survives unless the newcomer's confidence is strictly greater. -/
def survivor (d : InferredDependency) : Option InferredDependency → Option InferredDependency
  | none => some d
  | some e => if e.confidence < d.confidence then some d else some e

/-- First entry with the given pair in a deduplicated list. -/
def assocFindDep (k : String × String) (l : List InferredDependency) :
    Option InferredDependency :=
  l.find? (fun e => decide (depKey e = k))

/-- First entry for a key in a string-keyed association list. -/
def entryOf (k : String) (l : List (String × List String)) : Option (List String) :=
  (l.find? (fun p => decide (p.1 = k))).map Prod.snd

def entryD (k : String) (l : List (String × List String)) : List String :=
  (entryOf k l).getD []

/-- The values `parse_tasks_md` accepts for a complexity annotation. -/
def validComplexity (s : String) : Prop :=
  s = "low" ∨ s = "medium" ∨ s = "high"

instance (s : String) : Decidable (validComplexity s) := by
  unfold validComplexity; infer_instance

/-- The warnings the files annotation contributes for one matched line. -/
def filesWarningsOf (m : TaskMatch) : List String :=
  match m.filesAnn with
  | some _ => []
  | none => [filesWarning m.id]

/-- The IDs of all task lines the grammar matches, in document order. -/
def matchedIds (content : String) : List String :=
  (splitSections (splitOnChar '\n' content)).flatMap
    (fun blk => (blk.2.filterMap matchTaskLine).map (fun m => m.id))

/-- The IDs of all parsed tasks, in document order. -/
def parsedTaskIds (content : String) : List String :=
  ((parse_tasks_md content).sections.flatMap (fun s => s.tasks)).map (fun t => t.id)

/-- All `(task id, declared dependency)` occurrences, in order. -/
def declaredDeps (sections : List Section) : List (String × String) :=
  sections.flatMap (fun s =>
    s.tasks.flatMap (fun t => t.depends_on.map (fun d => (t.id, d))))

/-! ## Concrete inputs used by witnesses and counterexamples -/

/-- Two grammar-valid IDs with different numbers of numeric parts, with
descriptions that trigger the keyword strategy's sort-key comparison. -/
def mixedDepthInput : ParsedData :=
  ⟨[⟨1, [⟨"1.1", "schema stuff", []⟩, ⟨"1.1.2", "add mutation", []⟩]⟩]⟩

def exSubTasks : List TaskIn :=
  [⟨"1.1", "", []⟩, ⟨"1.2", "", []⟩, ⟨"1.3", "", []⟩]

def exSubOut : List InferredDependency :=
  [⟨"1.2", "1.1", 90, subsectionReason "1"⟩,
   ⟨"1.3", "1.2", 90, subsectionReason "1"⟩]

def exKwTasks : List TaskIn :=
  [⟨"1.1", "define schema", []⟩, ⟨"1.2", "add mutation", []⟩]

def exKwOut : List InferredDependency :=
  [⟨"1.2", "1.1", 50, keywordReason "mutation" "schema"⟩]

def exStemTasks : List TaskIn :=
  [⟨"2.1", "", ["user.ts"]⟩, ⟨"2.2", "", ["user.ts"]⟩]

def exStemOut : List InferredDependency :=
  [⟨"2.2", "2.1", 85, filePatternReason "user"⟩]

def exParsed : ParsedData :=
  ⟨[⟨1, [⟨"1.1", "define schema", []⟩, ⟨"1.2", "add mutation", []⟩]⟩]⟩

def exParsedCands : List InferredDependency :=
  [⟨"1.2", "1.1", 90, subsectionReason "1"⟩,
   ⟨"1.2", "1.1", 50, keywordReason "mutation" "schema"⟩]

def exMismatch : TaskMatch :=
  ⟨false, "2.1", "Fix", some "a.ts", none, none, none⟩

def exBogusComplexity : TaskMatch :=
  ⟨false, "1.1", "X", none, none, none, some "bogus"⟩

def exSections : List Section :=
  [⟨1, "S", [⟨"1.1", "d", [], ["9.9", "1.2"], none, "medium", false⟩,
             ⟨"1.2", "d", [], ["1.1"], none, "medium", false⟩]⟩]

/-! ## Lemmas: monadic loops -/

theorem listFlatMapM_ok_of_mem {α β : Type} {f : α → Except Unit (List β)}
    {as : List α} {l : List β} (h : listFlatMapM f as = .ok l) :
    ∀ a ∈ as, ∃ la, f a = .ok la := by
  induction as generalizing l with
  | nil => intro a ha; cases ha
  | cons a0 as ih =>
    intro a ha
    rw [listFlatMapM] at h
    cases hfa : f a0 with
    | error e => rw [hfa] at h; cases h
    | ok l1 =>
      rw [hfa] at h
      cases hrec : listFlatMapM f as with
      | error e => rw [hrec] at h; cases h
      | ok l2 =>
        rcases List.mem_cons.mp ha with rfl | ha2
        · exact ⟨l1, hfa⟩
        · exact ih hrec a ha2

theorem listFlatMapM_mem {α β : Type} {f : α → Except Unit (List β)}
    {as : List α} {l : List β} (h : listFlatMapM f as = .ok l) (b : β) :
    b ∈ l ↔ ∃ a ∈ as, ∃ la, f a = .ok la ∧ b ∈ la := by
  induction as generalizing l with
  | nil =>
    rw [listFlatMapM] at h
    cases h
    simp
  | cons a0 as ih =>
    rw [listFlatMapM] at h
    cases hfa : f a0 with
    | error e => rw [hfa] at h; cases h
    | ok l1 =>
      rw [hfa] at h
      cases hrec : listFlatMapM f as with
      | error e => rw [hrec] at h; cases h
      | ok l2 =>
        rw [hrec] at h
        cases h
        constructor
        · intro hb
          rcases List.mem_append.mp hb with h1 | h2
          · exact ⟨a0, List.mem_cons_self a0 as, l1, hfa, h1⟩
          · rcases (ih hrec).mp h2 with ⟨a, ha, la, hfa2, hba⟩
            exact ⟨a, List.mem_cons_of_mem a0 ha, la, hfa2, hba⟩
        · rintro ⟨a, ha, la, hfa2, hba⟩
          rcases List.mem_cons.mp ha with rfl | ha2
          · rw [hfa] at hfa2; cases hfa2
            exact List.mem_append.mpr (Or.inl hba)
          · exact List.mem_append.mpr (Or.inr ((ih hrec).mpr ⟨a, ha2, la, hfa2, hba⟩))

/-! ## Lemmas: the stable sort -/

theorem insertSorted_ok_mem {x : String} {l l' : List String}
    (h : insertSorted x l = .ok l') (y : String) :
    y ∈ l' ↔ y = x ∨ y ∈ l := by
  induction l generalizing l' with
  | nil => rw [insertSorted] at h; cases h; simp
  | cons y0 ys ih =>
    rw [insertSorted] at h
    cases hk : keyLt x y0 with
    | error e => rw [hk] at h; cases h
    | ok b =>
      rw [hk] at h
      cases b with
      | true => cases h; simp [or_comm, or_assoc, or_left_comm]
      | false =>
        cases hrec : insertSorted x ys with
        | error e => rw [hrec] at h; cases h
        | ok rest =>
          rw [hrec] at h
          cases h
          simp only [List.mem_cons, ih hrec]
          tauto

theorem insertSorted_ok_length {x : String} {l l' : List String}
    (h : insertSorted x l = .ok l') : l'.length = l.length + 1 := by
  induction l generalizing l' with
  | nil => rw [insertSorted] at h; cases h; rfl
  | cons y0 ys ih =>
    rw [insertSorted] at h
    cases hk : keyLt x y0 with
    | error e => rw [hk] at h; cases h
    | ok b =>
      rw [hk] at h
      cases b with
      | true => cases h; rfl
      | false =>
        cases hrec : insertSorted x ys with
        | error e => rw [hrec] at h; cases h
        | ok rest =>
          rw [hrec] at h
          cases h
          simp [ih hrec]

theorem sortAux_ok_mem {acc l : List String} {l' : List String}
    (h : sortAux acc l = .ok l') (y : String) :
    y ∈ l' ↔ y ∈ acc ∨ y ∈ l := by
  induction l generalizing acc l' with
  | nil => rw [sortAux] at h; cases h; simp
  | cons x xs ih =>
    rw [sortAux] at h
    cases hins : insertSorted x acc with
    | error e => rw [hins] at h; cases h
    | ok acc2 =>
      rw [hins] at h
      rw [ih h, insertSorted_ok_mem hins y]
      simp only [List.mem_cons]
      tauto

theorem sortAux_ok_length {acc l : List String} {l' : List String}
    (h : sortAux acc l = .ok l') : l'.length = acc.length + l.length := by
  induction l generalizing acc l' with
  | nil => rw [sortAux] at h; cases h; rfl
  | cons x xs ih =>
    rw [sortAux] at h
    cases hins : insertSorted x acc with
    | error e => rw [hins] at h; cases h
    | ok acc2 =>
      rw [hins] at h
      rw [ih h, insertSorted_ok_length hins]
      simp only [List.length_cons]
      omega

theorem sortByKeyE_ok_mem {l l' : List String} (h : sortByKeyE l = .ok l')
    (y : String) : y ∈ l' ↔ y ∈ l := by
  rw [sortAux_ok_mem h y]
  simp

theorem sortByKeyE_ok_length {l l' : List String} (h : sortByKeyE l = .ok l') :
    l'.length = l.length := by
  have := sortAux_ok_length h
  simpa using this

theorem sortByKeyE_small (l : List String) (h : l.length < 2) :
    sortByKeyE l = .ok l := by
  match l, h with
  | [], _ => rfl
  | [x], _ => rfl

/-! ## Lemmas: grouping dictionaries -/

theorem entryOf_cons (a : String) (b : List String) (l : List (String × List String))
    (k : String) :
    entryOf k ((a, b) :: l) = if a = k then some b else entryOf k l := by
  by_cases h : a = k <;> simp [entryOf, List.find?_cons, h]

theorem entryD_cons (a : String) (b : List String) (l : List (String × List String))
    (k : String) :
    entryD k ((a, b) :: l) = if a = k then b else entryD k l := by
  rw [entryD, entryOf_cons]
  by_cases h : a = k <;> simp [h, entryD]

theorem entryOf_upsert (k k' : String) (v : String) (l : List (String × List String)) :
    entryOf k (upsert k' v l) =
      if k = k' then some (entryD k l ++ [v]) else entryOf k l := by
  induction l with
  | nil =>
    by_cases hkk : k = k'
    · simp [upsert, entryOf_cons, entryOf, entryD, hkk]
    · simp [upsert, entryOf_cons, entryOf, entryD, hkk, Ne.symm hkk]
  | cons p rest ih =>
    obtain ⟨pk, pv⟩ := p
    by_cases hp : pk = k'
    · by_cases hpk : pk = k
      · have hkk : k = k' := hpk.symm.trans hp
        simp [upsert, hp, entryOf_cons, entryD_cons, hpk, hkk]
      · have hkk : ¬ k = k' := fun h => hpk (hp.trans h.symm)
        simp [upsert, hp, entryOf_cons, hpk, hkk, Ne.symm hkk]
    · by_cases hpk : pk = k
      · have hkk : ¬ k = k' := fun h => hp (hpk.trans h)
        simp [upsert, hp, entryOf_cons, entryD_cons, hpk, hkk]
      · simp [upsert, hp, entryOf_cons, entryD_cons, hpk, ih]

theorem keys_upsert (k : String) (v : String) (l : List (String × List String)) :
    (upsert k v l).map Prod.fst =
      if k ∈ l.map Prod.fst then l.map Prod.fst else l.map Prod.fst ++ [k] := by
  induction l with
  | nil => simp [upsert]
  | cons p rest ih =>
    obtain ⟨pk, pv⟩ := p
    by_cases hp : pk = k
    · simp [upsert, hp]
    · have hkp : ¬ k = pk := fun h => hp h.symm
      simp only [upsert, if_neg hp, List.map_cons, List.mem_cons, hkp, false_or]
      rw [ih]
      by_cases hmem : k ∈ rest.map Prod.fst <;> simp [hmem]

theorem nodup_keys_upsert (k : String) (v : String) (l : List (String × List String))
    (h : (l.map Prod.fst).Nodup) : ((upsert k v l).map Prod.fst).Nodup := by
  rw [keys_upsert]
  by_cases hmem : k ∈ l.map Prod.fst
  · simpa [hmem]
  · simp only [if_neg hmem]
    exact List.nodup_append.mpr
      ⟨h, List.nodup_singleton k, fun a ha hka => hmem ((List.mem_singleton.mp hka) ▸ ha)⟩

theorem mem_iff_entryOf (l : List (String × List String))
    (hnd : (l.map Prod.fst).Nodup) (k : String) (g : List String) :
    (k, g) ∈ l ↔ entryOf k l = some g := by
  induction l with
  | nil => simp [entryOf]
  | cons p rest ih =>
    obtain ⟨pk, pv⟩ := p
    simp only [List.map_cons, List.nodup_cons] at hnd
    rw [entryOf_cons, List.mem_cons]
    by_cases hp : pk = k
    · subst hp
      rw [if_pos rfl]
      constructor
      · rintro (h | h)
        · rw [Prod.mk.injEq] at h
          rw [h.2]
        · exact absurd (by simpa using List.mem_map_of_mem Prod.fst h) hnd.1
      · intro h
        rw [Option.some.injEq] at h
        subst h
        exact Or.inl rfl
    · rw [if_neg hp, ih hnd.2]
      have hne : ¬ ((k, g) = (pk, pv)) := fun h => hp (congrArg Prod.fst h).symm
      simp [hne]

theorem entryD_foldl_upsert (pairs : List (String × String))
    (acc : List (String × List String)) (k : String) :
    entryD k (pairs.foldl (fun a p => upsert p.1 p.2 a) acc) =
      entryD k acc ++ (pairs.filter (fun q => decide (q.1 = k))).map Prod.snd := by
  induction pairs generalizing acc with
  | nil => simp
  | cons p rest ih =>
    simp only [List.foldl_cons, List.filter_cons]
    rw [ih]
    by_cases hp : p.1 = k
    · have hk : k = p.1 := hp.symm
      rw [if_pos (by simpa using hp)]
      simp only [List.map_cons]
      have : entryD k (upsert p.1 p.2 acc) = entryD k acc ++ [p.2] := by
        simp [entryD, entryOf_upsert, hk]
      rw [this, List.append_cons, List.append_assoc]
      simp
    · rw [if_neg (by simpa using hp)]
      have : entryD k (upsert p.1 p.2 acc) = entryD k acc := by
        have hk : ¬ k = p.1 := fun h => hp h.symm
        simp [entryD, entryOf_upsert, hk]
      rw [this]

theorem keys_foldl_upsert_mem (pairs : List (String × String))
    (acc : List (String × List String)) (k : String) :
    k ∈ (pairs.foldl (fun a p => upsert p.1 p.2 a) acc).map Prod.fst ↔
      k ∈ acc.map Prod.fst ∨ k ∈ pairs.map Prod.fst := by
  induction pairs generalizing acc with
  | nil => simp
  | cons p rest ih =>
    simp only [List.foldl_cons, List.map_cons, List.mem_cons]
    rw [ih, keys_upsert]
    by_cases hmem : p.1 ∈ acc.map Prod.fst
    · simp only [if_pos hmem]
      constructor
      · rintro (h | h) <;> tauto
      · rintro (h | h | h)
        · tauto
        · subst h; tauto
        · tauto
    · simp only [if_neg hmem, List.mem_append, List.mem_singleton]
      tauto

theorem nodup_keys_foldl_upsert (pairs : List (String × String))
    (acc : List (String × List String)) (h : (acc.map Prod.fst).Nodup) :
    ((pairs.foldl (fun a p => upsert p.1 p.2 a) acc).map Prod.fst).Nodup := by
  induction pairs generalizing acc with
  | nil => exact h
  | cons p rest ih => exact ih _ (nodup_keys_upsert _ _ _ h)

theorem groupIds_keys_nodup (pairs : List (String × String)) :
    ((groupIds pairs).map Prod.fst).Nodup :=
  nodup_keys_foldl_upsert pairs [] (by simp)

theorem entryOf_isSome_of_mem_keys (l : List (String × List String)) (k : String)
    (hk : k ∈ l.map Prod.fst) : ∃ g, entryOf k l = some g := by
  induction l with
  | nil => simp at hk
  | cons p rest ih =>
    obtain ⟨pk, pv⟩ := p
    by_cases hp : pk = k
    · exact ⟨pv, by simp [entryOf_cons, hp]⟩
    · have hmem : k ∈ rest.map Prod.fst := by
        rw [List.map_cons, List.mem_cons] at hk
        rcases hk with h | h
        · exact absurd h.symm hp
        · exact h
      rcases ih hmem with ⟨g, hg⟩
      exact ⟨g, by simpa [entryOf_cons, hp] using hg⟩

theorem mem_keys_of_entryOf_some (l : List (String × List String)) (k : String)
    (g : List String) (h : entryOf k l = some g) : k ∈ l.map Prod.fst := by
  simp only [entryOf, Option.map_eq_some'] at h
  rcases h with ⟨p, hp, hg⟩
  have hpk : p.1 = k := by simpa using List.find?_some hp
  exact hpk ▸ List.mem_map_of_mem Prod.fst (List.mem_of_find?_eq_some hp)

/-- Membership in the `defaultdict` grouping is exactly: the key occurs, and
the group is the filtered value list in traversal order. -/
theorem groupIds_mem_char (pairs : List (String × String)) (k : String)
    (g : List String) :
    (k, g) ∈ groupIds pairs ↔
      k ∈ pairs.map Prod.fst ∧
        g = (pairs.filter (fun q => decide (q.1 = k))).map Prod.snd := by
  rw [mem_iff_entryOf _ (groupIds_keys_nodup pairs)]
  have hent : entryD k (groupIds pairs) =
      (pairs.filter (fun q => decide (q.1 = k))).map Prod.snd := by
    simpa [entryD, entryOf] using entryD_foldl_upsert pairs [] k
  constructor
  · intro h
    refine ⟨?_, ?_⟩
    · have hkeys := mem_keys_of_entryOf_some _ _ _ h
      rcases (keys_foldl_upsert_mem pairs [] k).mp (by simpa [groupIds] using hkeys) with h2 | h2
      · simp at h2
      · exact h2
    · rw [← hent]
      simp [entryD, h]
  · rintro ⟨hk, rfl⟩
    have hkeys : k ∈ (groupIds pairs).map Prod.fst := by
      rw [groupIds, keys_foldl_upsert_mem]
      exact Or.inr hk
    rcases entryOf_isSome_of_mem_keys _ _ hkeys with ⟨g', hg'⟩
    have : g' = entryD k (groupIds pairs) := by simp [entryD, hg']
    rw [hent] at this
    rw [← this]
    exact hg'

/-! ## Lemmas: emitted edge shapes -/

theorem mem_of_getElem?_eq {α : Type} {l : List α} {i : Nat} {a : α}
    (h : l[i]? = some a) : a ∈ l := by
  rcases List.getElem?_eq_some.mp h with ⟨hlt, rfl⟩
  exact List.getElem_mem hlt

theorem consecEdges_mem (k : String) (l : List String) (e : InferredDependency) :
    e ∈ consecEdges k l ↔
      ∃ i a b, l[i]? = some a ∧ l[i + 1]? = some b ∧
        e = ⟨b, a, 90, subsectionReason k⟩ := by
  induction l with
  | nil => simp [consecEdges]
  | cons x tl ih =>
    cases tl with
    | nil =>
      simp only [consecEdges, List.not_mem_nil, false_iff]
      rintro ⟨i, a, b, ha, hb, -⟩
      rcases List.getElem?_eq_some.mp hb with ⟨hlt, -⟩
      simp at hlt
    | cons y tl2 =>
      rw [consecEdges, List.mem_cons, ih]
      constructor
      · rintro (rfl | ⟨i, a, b, ha, hb, rfl⟩)
        · exact ⟨0, x, y, by simp, by simp, rfl⟩
        · exact ⟨i + 1, a, b, by simpa using ha, by simpa using hb, rfl⟩
      · rintro ⟨i, a, b, ha, hb, rfl⟩
        cases i with
        | zero =>
          simp only [List.getElem?_cons_zero, Option.some.injEq] at ha
          simp only [zero_add, List.getElem?_cons_succ, List.getElem?_cons_zero,
            Option.some.injEq] at hb
          left
          rw [ha, hb]
        | succ j =>
          right
          exact ⟨j, a, b, by simpa using ha, by simpa using hb, rfl⟩

theorem fanInAux_mem (s : String) (earlier rest : List String)
    (e : InferredDependency) :
    e ∈ fanInAux s earlier rest ↔
      ∃ (i j : Nat) (f t : String), rest[i]? = some f ∧ (earlier ++ rest.take i)[j]? = some t ∧
        e = ⟨f, t, 85, filePatternReason s⟩ := by
  induction rest generalizing earlier with
  | nil =>
    simp only [fanInAux, List.not_mem_nil, false_iff]
    rintro ⟨i, j, f, t, hf, -, -⟩
    simp at hf
  | cons x tl ih =>
    rw [fanInAux, List.mem_append, ih]
    constructor
    · rintro (hmem | ⟨i, j, f, t, hf, ht, rfl⟩)
      · rcases List.mem_map.mp hmem with ⟨t, ht, rfl⟩
        rcases List.getElem_of_mem ht with ⟨j, hj, hjt⟩
        refine ⟨0, j, x, t, by simp, ?_, rfl⟩
        simp only [List.take_zero, List.append_nil]
        exact List.getElem?_eq_some.mpr ⟨hj, hjt⟩
      · refine ⟨i + 1, j, f, t, by simpa using hf, ?_, rfl⟩
        have hsh : (earlier ++ (x :: tl).take (i + 1)) = ((earlier ++ [x]) ++ tl.take i) := by
          simp [List.append_assoc]
        rw [hsh]
        exact ht
    · rintro ⟨i, j, f, t, hf, ht, rfl⟩
      cases i with
      | zero =>
        simp only [List.getElem?_cons_zero, Option.some.injEq] at hf
        subst hf
        left
        simp only [List.take_zero, List.append_nil] at ht
        exact List.mem_map.mpr ⟨t, mem_of_getElem?_eq ht, rfl⟩
      | succ i2 =>
        right
        refine ⟨i2, j, f, t, by simpa using hf, ?_, rfl⟩
        have hsh : (earlier ++ (x :: tl).take (i2 + 1)) = ((earlier ++ [x]) ++ tl.take i2) := by
          simp [List.append_assoc]
        rw [hsh] at ht
        exact ht

theorem fanInEdges_mem (s : String) (l : List String) (e : InferredDependency) :
    e ∈ fanInEdges s l ↔
      ∃ (i j : Nat) (f t : String), j < i ∧ l[i]? = some f ∧ l[j]? = some t ∧
        e = ⟨f, t, 85, filePatternReason s⟩ := by
  cases l with
  | nil =>
    simp only [fanInEdges, List.not_mem_nil, false_iff]
    rintro ⟨i, j, f, t, -, hf, -, -⟩
    rcases List.getElem?_eq_some.mp hf with ⟨hlt, -⟩
    simp at hlt
  | cons x tl =>
    rw [fanInEdges, fanInAux_mem]
    constructor
    · rintro ⟨i, j, f, t, hf, ht, rfl⟩
      have htake : ([x] ++ tl.take i) = (x :: tl).take (i + 1) := rfl
      rw [htake] at ht
      have hj : j < i + 1 := by
        rcases List.getElem?_eq_some.mp ht with ⟨hjl, -⟩
        rw [List.length_take] at hjl
        omega
      refine ⟨i + 1, j, f, t, hj, by simpa using hf, ?_, rfl⟩
      rw [← List.getElem?_take_of_lt hj]
      exact ht
    · rintro ⟨i, j, f, t, hji, hf, ht, rfl⟩
      have hi1 : 1 ≤ i := by omega
      refine ⟨i - 1, j, f, t, ?_, ?_, rfl⟩
      · have : (x :: tl)[i]? = tl[i - 1]? := by
          cases i with
          | zero => omega
          | succ i2 => simp
        rw [← this]
        exact hf
      · have htake : ([x] ++ tl.take (i - 1)) = (x :: tl).take (i - 1 + 1) := rfl
        rw [htake, List.getElem?_take_of_lt (by omega)]
        exact ht

/-! ## Lemmas: small facts -/

theorem pvEqB_refl (a : PyVal) : pvEqB a a = true := by
  cases a <;> simp [pvEqB]

theorem tupLt_self (l : List PyVal) : tupLt l l = .ok false := by
  induction l with
  | nil => rfl
  | cons a as ih => simp [tupLt, pvEqB_refl, ih]

theorem nodup_map_inj_mem {α β : Type} {f : α → β} {l : List α}
    (hnd : (l.map f).Nodup) {a b : α} (ha : a ∈ l) (hb : b ∈ l)
    (hf : f a = f b) : a = b := by
  induction l with
  | nil => cases ha
  | cons x tl ih =>
    simp only [List.map_cons, List.nodup_cons] at hnd
    rcases List.mem_cons.mp ha with rfl | ha2
    · rcases List.mem_cons.mp hb with rfl | hb2
      · rfl
      · exact absurd (hf ▸ List.mem_map_of_mem f hb2) hnd.1
    · rcases List.mem_cons.mp hb with rfl | hb2
      · exact absurd (hf ▸ List.mem_map_of_mem f ha2) hnd.1
      · exact ih hnd.2 ha2 hb2

theorem two_mem_length_ge {l : List String} {a b : String}
    (ha : a ∈ l) (hb : b ∈ l) (hab : a ≠ b) : 2 ≤ l.length := by
  cases l with
  | nil => cases ha
  | cons x tl =>
    cases tl with
    | nil =>
      rcases List.mem_singleton.mp ha with rfl
      rcases List.mem_singleton.mp hb with rfl
      exact absurd rfl hab
    | cons y tl2 => simp [List.length_cons]

/-! ## Lemmas: dictionary assignment (`task_keywords`) -/

theorem lookupD_cons (a : String) (b : List String) (l : List (String × List String))
    (k : String) (d : List String) :
    lookupD ((a, b) :: l) k d = if a = k then b else lookupD l k d := by
  by_cases h : a = k <;> simp [lookupD, List.find?_cons, h]

theorem lookupD_dictSet (m : List (String × List String)) (k : String)
    (v : List String) (k' : String) (d : List String) :
    lookupD (dictSet m k v) k' d = if k' = k then v else lookupD m k' d := by
  induction m with
  | nil =>
    by_cases h : k' = k
    · simp [dictSet, lookupD_cons, lookupD, h]
    · simp [dictSet, lookupD_cons, lookupD, h, Ne.symm h]
  | cons p rest ih =>
    obtain ⟨pk, pv⟩ := p
    by_cases hp : pk = k
    · by_cases hk : k' = k
      · have hpk : pk = k' := hp.trans hk.symm
        simp [dictSet, hp, lookupD_cons, hpk, hk]
      · have hpk : ¬ pk = k' := fun h => hk (h.symm.trans hp)
        simp [dictSet, hp, lookupD_cons, hpk, hk, Ne.symm hk]
    · by_cases hpk : pk = k'
      · have hk : ¬ k' = k := fun h => hp (hpk.trans h)
        simp [dictSet, hp, lookupD_cons, hpk, hk]
      · simp [dictSet, hp, lookupD_cons, hpk, ih]

theorem lookupD_foldl_dictSet_not_mem (ts : List TaskIn)
    (acc : List (String × List String)) (k : String) (d : List String)
    (hk : k ∉ ts.map TaskIn.id) :
    lookupD (ts.foldl (fun a t => dictSet a t.id (extract_keywords t.description)) acc) k d
      = lookupD acc k d := by
  induction ts generalizing acc with
  | nil => rfl
  | cons t rest ih =>
    simp only [List.map_cons, List.mem_cons] at hk
    push_neg at hk
    simp only [List.foldl_cons]
    rw [ih _ hk.2, lookupD_dictSet, if_neg hk.1]

theorem lookupD_foldl_dictSet (ts : List TaskIn)
    (acc : List (String × List String)) (hnd : (ts.map TaskIn.id).Nodup)
    {t : TaskIn} (ht : t ∈ ts) :
    lookupD (ts.foldl (fun a u => dictSet a u.id (extract_keywords u.description)) acc)
        t.id []
      = extract_keywords t.description := by
  induction ts generalizing acc with
  | nil => cases ht
  | cons u rest ih =>
    simp only [List.map_cons, List.nodup_cons] at hnd
    simp only [List.foldl_cons]
    rcases List.mem_cons.mp ht with rfl | ht2
    · rw [lookupD_foldl_dictSet_not_mem _ _ _ _ hnd.1, lookupD_dictSet, if_pos rfl]
    · exact ih _ hnd.2 ht2

theorem taskKeywordsMap_lookup (ts : List TaskIn)
    (hnd : (ts.map TaskIn.id).Nodup) {t : TaskIn} (ht : t ∈ ts) :
    lookupD (taskKeywordsMap ts) t.id [] = extract_keywords t.description :=
  lookupD_foldl_dictSet ts [] hnd ht

/-! ## Lemmas: dedup -/

theorem firstMax_append (l : List InferredDependency) (d : InferredDependency) :
    firstMax (l ++ [d]) = survivor d (firstMax l) := by
  induction l with
  | nil => simp [firstMax, survivor]
  | cons a tl ih =>
    rw [List.cons_append, firstMax, ih, firstMax]
    cases hR : firstMax tl with
    | none =>
      by_cases h : a.confidence < d.confidence <;> simp [survivor, h]
    | some e =>
      by_cases h1 : e.confidence < d.confidence <;> by_cases h2 : a.confidence < e.confidence
      · have h3 : a.confidence < d.confidence := by omega
        simp [survivor, h1, h2, h3]
      · simp [survivor, h1, h2]
      · simp [survivor, h1, h2]
      · have h3 : ¬ a.confidence < d.confidence := by omega
        simp [survivor, h1, h2, h3]

theorem firstMax_isSome {l : List InferredDependency} (h : l ≠ []) :
    ∃ e, firstMax l = some e := by
  cases l with
  | nil => exact absurd rfl h
  | cons a tl =>
    rw [firstMax]
    cases firstMax tl with
    | none => exact ⟨a, rfl⟩
    | some e =>
      by_cases hc : a.confidence < e.confidence
      · exact ⟨e, by simp [hc]⟩
      · exact ⟨a, by simp [hc]⟩

theorem assocFindDep_cons (a : InferredDependency) (l : List InferredDependency)
    (k : String × String) :
    assocFindDep k (a :: l) = if depKey a = k then some a else assocFindDep k l := by
  by_cases h : depKey a = k <;> simp [assocFindDep, List.find?_cons, h]

theorem assocFindDep_key {k : String × String} {l : List InferredDependency}
    {e : InferredDependency} (h : assocFindDep k l = some e) : depKey e = k := by
  simpa using List.find?_some h

theorem assocFindDep_mem {k : String × String} {l : List InferredDependency}
    {e : InferredDependency} (h : assocFindDep k l = some e) : e ∈ l :=
  List.mem_of_find?_eq_some h

theorem mem_assocFindDep {l : List InferredDependency}
    (hnd : (l.map depKey).Nodup) {e : InferredDependency} (he : e ∈ l) :
    assocFindDep (depKey e) l = some e := by
  induction l with
  | nil => cases he
  | cons a tl ih =>
    simp only [List.map_cons, List.nodup_cons] at hnd
    rw [assocFindDep_cons]
    rcases List.mem_cons.mp he with rfl | he2
    · rw [if_pos rfl]
    · by_cases hk : depKey a = depKey e
      · exact absurd (hk ▸ List.mem_map_of_mem depKey he2) hnd.1
      · rw [if_neg hk]
        exact ih hnd.2 he2

theorem assocFindDep_map_keyPreserving (l : List InferredDependency)
    (f : InferredDependency → InferredDependency)
    (hf : ∀ e, depKey (f e) = depKey e) (k : String × String) :
    assocFindDep k (l.map f) = (assocFindDep k l).map f := by
  induction l with
  | nil => simp [assocFindDep]
  | cons a tl ih =>
    rw [List.map_cons, assocFindDep_cons, assocFindDep_cons, hf a]
    by_cases h : depKey a = k
    · simp [h]
    · simp [h, ih]

theorem exists_mem_assocFindDep {l : List InferredDependency} {k : String × String}
    (h : ∃ e ∈ l, depKey e = k) : ∃ e, assocFindDep k l = some e := by
  induction l with
  | nil => simp at h
  | cons a tl ih =>
    rw [assocFindDep_cons]
    by_cases ha : depKey a = k
    · exact ⟨a, by rw [if_pos ha]⟩
    · rcases h with ⟨e, he, hk⟩
      rcases List.mem_cons.mp he with rfl | he2
      · exact absurd hk ha
      · rcases ih ⟨e, he2, hk⟩ with ⟨e2, he2'⟩
        exact ⟨e2, by rw [if_neg ha]; exact he2'⟩

theorem dedupStep_keys_nodup (acc : List InferredDependency)
    (d : InferredDependency) (hnd : (acc.map depKey).Nodup) :
    ((dedupStep acc d).map depKey).Nodup := by
  rw [dedupStep]
  split_ifs with hex
  · have : (acc.map (fun e =>
        if depKey e = depKey d ∧ e.confidence < d.confidence then d else e)).map depKey
        = acc.map depKey := by
      rw [List.map_map]
      apply List.map_congr_left
      intro e _
      simp only [Function.comp_apply]
      split_ifs with h
      · rw [h.1]
      · rfl
    rw [this]
    exact hnd
  · rw [List.map_append]
    refine List.nodup_append.mpr ⟨hnd, by simp, ?_⟩
    intro k hk hk2
    rcases List.mem_map.mp hk with ⟨e, he, rfl⟩
    rw [List.map_singleton, List.mem_singleton] at hk2
    exact hex ⟨e, he, hk2⟩

theorem dedupStep_assocFind (acc : List InferredDependency) (d : InferredDependency)
    (k : String × String) :
    assocFindDep k (dedupStep acc d) =
      if k = depKey d then survivor d (assocFindDep k acc)
      else assocFindDep k acc := by
  by_cases hex : ∃ e ∈ acc, depKey e = depKey d
  · rw [dedupStep, if_pos hex,
      assocFindDep_map_keyPreserving _ _
        (fun e => by split_ifs with h; exacts [h.1.symm, rfl]) k]
    by_cases hk : k = depKey d
    · subst hk
      rw [if_pos rfl]
      cases hfind : assocFindDep (depKey d) acc with
      | none =>
        rcases exists_mem_assocFindDep hex with ⟨e, he⟩
        rw [hfind] at he
        cases he
      | some e =>
        have hkey := assocFindDep_key hfind
        simp only [Option.map_some, survivor]
        by_cases hc : e.confidence < d.confidence
        · simp [hkey, hc]
        · simp [hkey, hc]
    · rw [if_neg hk]
      cases hfind : assocFindDep k acc with
      | none => rfl
      | some e =>
        have hkey := assocFindDep_key hfind
        have hne : ¬ (depKey e = depKey d ∧ e.confidence < d.confidence) :=
          fun hcon => hk (hkey.symm.trans hcon.1)
        simp [hne]
  · rw [dedupStep, if_neg hex]
    by_cases hk : k = depKey d
    · subst hk
      have hnone : assocFindDep (depKey d) acc = none := by
        rw [assocFindDep]
        apply List.find?_eq_none.mpr
        intro e he hdec
        exact hex ⟨e, he, by simpa using hdec⟩
      rw [if_pos rfl, hnone]
      rw [assocFindDep, List.find?_append]
      rw [assocFindDep] at hnone
      rw [hnone]
      simp [List.find?_cons, survivor]
    · rw [if_neg hk]
      rw [assocFindDep, List.find?_append]
      have hd : (decide (depKey d = k)) = false := by
        simp only [decide_eq_false_iff_not]
        exact fun h => hk h.symm
      cases hfind : List.find? (fun e => decide (depKey e = k)) acc with
      | none => simp [List.find?_cons, hd, assocFindDep, hfind]
      | some e => simp [assocFindDep, hfind]

theorem dedup_keys_nodup (ds : List InferredDependency) :
    ((dedup ds).map depKey).Nodup := by
  induction ds using List.reverseRecOn with
  | nil => simp [dedup]
  | append_singleton ds d ih =>
    rw [dedup, List.foldl_append, List.foldl_cons, List.foldl_nil]
    exact dedupStep_keys_nodup _ _ ih

/-- The dedup dictionary holds, for every pair, the first candidate of
maximal confidence among the candidates for that pair seen so far. -/
theorem dedup_assocFind (ds : List InferredDependency) (k : String × String) :
    assocFindDep k (dedup ds) = firstMax (candidatesFor k ds) := by
  induction ds using List.reverseRecOn with
  | nil => simp [dedup, assocFindDep, candidatesFor, firstMax]
  | append_singleton ds d ih =>
    have hstep : dedup (ds ++ [d]) = dedupStep (dedup ds) d := by
      rw [dedup, dedup, List.foldl_append, List.foldl_cons, List.foldl_nil]
    rw [hstep, dedupStep_assocFind, ih]
    have hfil : candidatesFor k (ds ++ [d]) =
        candidatesFor k ds ++ (if depKey d = k then [d] else []) := by
      rw [candidatesFor, candidatesFor, List.filter_append]
      congr 1
      by_cases hdk : depKey d = k <;> simp [hdk]
    rw [hfil]
    by_cases hk : k = depKey d
    · rw [if_pos hk, if_pos hk.symm, firstMax_append]
    · rw [if_neg hk, if_neg (fun h => hk h.symm), List.append_nil]

theorem dedup_mem_firstMax (ds : List InferredDependency)
    {e : InferredDependency} (he : e ∈ dedup ds) :
    firstMax (candidatesFor (depKey e) ds) = some e := by
  rw [← dedup_assocFind]
  exact mem_assocFindDep (dedup_keys_nodup ds) he

theorem dedup_complete (ds : List InferredDependency)
    {d : InferredDependency} (hd : d ∈ ds) :
    ∃ e ∈ dedup ds, depKey e = depKey d := by
  have hne : candidatesFor (depKey d) ds ≠ [] := by
    intro h
    have : d ∈ candidatesFor (depKey d) ds := by
      rw [candidatesFor, List.mem_filter]
      exact ⟨hd, by simp⟩
    rw [h] at this
    cases this
  rcases firstMax_isSome hne with ⟨e, he⟩
  have hfind : assocFindDep (depKey d) (dedup ds) = some e := by
    rw [dedup_assocFind]; exact he
  exact ⟨e, assocFindDep_mem hfind, assocFindDep_key hfind⟩

theorem firstMax_mem {l : List InferredDependency} {e : InferredDependency}
    (h : firstMax l = some e) : e ∈ l := by
  induction l with
  | nil => cases h
  | cons a tl ih =>
    rw [firstMax] at h
    cases hR : firstMax tl with
    | none => rw [hR] at h; cases h; exact List.mem_cons_self _ _
    | some e2 =>
      rw [hR] at h
      have h2 : (if a.confidence < e2.confidence then some e2 else some a) = some e := h
      by_cases hc : a.confidence < e2.confidence
      · rw [if_pos hc] at h2
        cases h2
        exact List.mem_cons_of_mem _ (ih hR)
      · rw [if_neg hc] at h2
        cases h2
        exact List.mem_cons_self _ _

/-! ## Claim theorems -/

/-- C1: the inference engine is not total.  On the parsed input holding the
grammar-valid task IDs `1.1` (description mentioning a schema) and `1.1.2`
(description mentioning a mutation), the keyword strategy compares the sort
keys `(1, 1, '')` and `(1, 1, 2, '')`; Python evaluates `'' < 2`, which
raises `TypeError`, so `infer_dependencies` raises instead of returning an
`{auto_apply, pending_review}` result. -/
theorem keyword_comparison_type_error :
    infer_dependencies mixedDepthInput 70 = .error () := by rfl

/-- C9: `validate_dependencies` returns exactly one blocking error per
declared `depends_on` occurrence that is not among the discovered task IDs
(in document order), and returns `[]` iff every declared dependency of every
task references an existing task ID. -/
theorem validate_dependencies_correct (ss : List Section) :
    validate_dependencies ss =
      ((declaredDeps ss).filter (fun p => !decide (p.2 ∈ allTaskIds ss))).map
        (fun p => unknownDepError p.1 p.2)
    ∧ (validate_dependencies ss = [] ↔
        ∀ s ∈ ss, ∀ t ∈ s.tasks, ∀ d ∈ t.depends_on, d ∈ allTaskIds ss) := by
  have h1 : ∀ (tid : String) (deps : List String),
      deps.filterMap
          (fun d => if d ∈ allTaskIds ss then none else some (unknownDepError tid d))
        = (deps.filter (fun d => !decide (d ∈ allTaskIds ss))).map
            (fun d => unknownDepError tid d) := by
    intro tid deps
    induction deps with
    | nil => rfl
    | cons d rest ih =>
      by_cases hd : d ∈ allTaskIds ss <;> simp [hd, ih]
  have h2 : ∀ t : Task,
      ((t.depends_on.map (fun d => (t.id, d))).filter
          (fun p => !decide (p.2 ∈ allTaskIds ss))).map
          (fun p => unknownDepError p.1 p.2)
        = t.depends_on.filterMap
            (fun d => if d ∈ allTaskIds ss then none else some (unknownDepError t.id d)) := by
    intro t
    rw [List.filter_map, List.map_map, h1]
    rfl
  have heq : validate_dependencies ss =
      ((declaredDeps ss).filter (fun p => !decide (p.2 ∈ allTaskIds ss))).map
        (fun p => unknownDepError p.1 p.2) := by
    rw [validate_dependencies, declaredDeps]
    simp only [List.filter_flatMap, List.map_flatMap, h2]
  refine ⟨heq, ?_⟩
  rw [heq, List.map_eq_nil_iff, List.filter_eq_nil_iff]
  constructor
  · intro h s hs t ht d hd
    have hp : (t.id, d) ∈ declaredDeps ss := by
      rw [declaredDeps]
      refine List.mem_flatMap.mpr ⟨s, hs, ?_⟩
      refine List.mem_flatMap.mpr ⟨t, ht, ?_⟩
      exact List.mem_map.mpr ⟨d, hd, rfl⟩
    simpa using h _ hp
  · intro h p hp
    rw [declaredDeps] at hp
    rcases List.mem_flatMap.mp hp with ⟨s, hs, hp2⟩
    rcases List.mem_flatMap.mp hp2 with ⟨t, ht, hp3⟩
    rcases List.mem_map.mp hp3 with ⟨d, hd, rfl⟩
    simpa using h s hs t ht d hd

/-- C9 witness: the correctness statement evaluated on a two-task section
with one unknown and one known reference. -/
theorem validate_dependencies_correct_witness :
    validate_dependencies exSections =
      ((declaredDeps exSections).filter
          (fun p => !decide (p.2 ∈ allTaskIds exSections))).map
        (fun p => unknownDepError p.1 p.2)
    ∧ (validate_dependencies exSections = [] ↔
        ∀ s ∈ exSections, ∀ t ∈ s.tasks, ∀ d ∈ t.depends_on,
          d ∈ allTaskIds exSections) :=
  validate_dependencies_correct exSections

/-- C4 counterexample: a matched task line with no complexity annotation is
parsed with complexity `medium` but the parser records NO warning, contrary
to the claim that a missing complexity value produces a warning. -/
theorem missing_complexity_no_warning :
    (parse_tasks_md "## 1. S\n- [ ] 1.1 Do it (files: a.ts)").warnings = []
    ∧ ((parse_tasks_md "## 1. S\n- [ ] 1.1 Do it (files: a.ts)").sections.flatMap
        (fun s => s.tasks)).map (fun t => t.complexity) = ["medium"] :=
  ⟨rfl, rfl⟩

/-- C4 (amended): a present complexity annotation that normalizes (strip,
lowercase) to low/medium/high is kept with no complexity warning; a present
but invalid value is coerced to `medium` with a warning; a missing annotation
is silently coerced to `medium` with no warning. -/
theorem complexity_coercion (n : Nat) (m : TaskMatch) :
    (∀ c, m.complexityAnn = some c → validComplexity (pyLower (pyStrip c)) →
      (processMatch n m).1.complexity = pyLower (pyStrip c)
      ∧ (processMatch n m).2.2 = filesWarningsOf m)
    ∧ (∀ c, m.complexityAnn = some c → ¬ validComplexity (pyLower (pyStrip c)) →
      (processMatch n m).1.complexity = "medium"
      ∧ (processMatch n m).2.2
          = filesWarningsOf m ++ [complexityWarning m.id (pyLower (pyStrip c))])
    ∧ (m.complexityAnn = none →
      (processMatch n m).1.complexity = "medium"
      ∧ (processMatch n m).2.2 = filesWarningsOf m) := by
  refine ⟨?_, ?_, ?_⟩
  · intro c hc hv
    have hv2 : pyLower (pyStrip c) = "low" ∨ pyLower (pyStrip c) = "medium"
        ∨ pyLower (pyStrip c) = "high" := hv
    cases hf : m.filesAnn with
    | none => constructor <;> simp [processMatch, hc, hf, filesWarningsOf, if_pos hv2]
    | some fs => constructor <;> simp [processMatch, hc, hf, filesWarningsOf, if_pos hv2]
  · intro c hc hv
    have hv2 : ¬ (pyLower (pyStrip c) = "low" ∨ pyLower (pyStrip c) = "medium"
        ∨ pyLower (pyStrip c) = "high") := hv
    cases hf : m.filesAnn with
    | none => constructor <;> simp [processMatch, hc, hf, filesWarningsOf, if_neg hv2]
    | some fs => constructor <;> simp [processMatch, hc, hf, filesWarningsOf, if_neg hv2]
  · intro hc
    cases hf : m.filesAnn with
    | none => constructor <;> simp [processMatch, hc, hf, filesWarningsOf]
    | some fs => constructor <;> simp [processMatch, hc, hf, filesWarningsOf]

/-- C4 witness: the amended statement applied to a match with the invalid
complexity value `bogus`. -/
theorem complexity_coercion_witness :
    (processMatch 1 exBogusComplexity).1.complexity = "medium"
    ∧ (processMatch 1 exBogusComplexity).2.2
        = filesWarningsOf exBogusComplexity
          ++ [complexityWarning "1.1" (pyLower (pyStrip "bogus"))] :=
  (complexity_coercion 1 exBogusComplexity).2.1 "bogus" rfl (by decide)

/-- C10: a matched task line whose leading ID number differs from the
enclosing section's number is still appended to the section's task list,
with its fields taken from the match unchanged, and the mismatch is recorded
as a blocking error. -/
theorem mismatched_task_recorded_and_kept (secNum : Nat) (lines : List String)
    (line : String) (m : TaskMatch) (hline : line ∈ lines)
    (hm : matchTaskLine line = some m) (hne : firstSegNat m.id ≠ secNum) :
    (processMatch secNum m).1 ∈ (processSection secNum lines).1
    ∧ sectionMismatchError m.id secNum ∈ (processSection secNum lines).2.1
    ∧ (processMatch secNum m).1.id = m.id
    ∧ (processMatch secNum m).1.description = pyStrip m.description
    ∧ (processMatch secNum m).1.completed = m.completed := by
  have hmem : m ∈ lines.filterMap matchTaskLine :=
    List.mem_filterMap.mpr ⟨line, hline, hm⟩
  refine ⟨?_, ?_, rfl, rfl, rfl⟩
  · exact List.mem_map.mpr ⟨m, hmem, rfl⟩
  · have herr : (processMatch secNum m).2.1 = [sectionMismatchError m.id secNum] := by
      simp [processMatch, hne]
    exact List.mem_flatMap.mpr ⟨m, hmem, by rw [herr]; exact List.mem_singleton.mpr rfl⟩

/-- C10 witness: a `2.1` task line inside section 1 is kept and the error
recorded. -/
theorem mismatched_task_recorded_and_kept_witness :
    "- [ ] 2.1 Fix (files: a.ts)" ∈ ["- [ ] 2.1 Fix (files: a.ts)"]
    ∧ matchTaskLine "- [ ] 2.1 Fix (files: a.ts)" = some exMismatch
    ∧ firstSegNat exMismatch.id ≠ 1
    ∧ ((processMatch 1 exMismatch).1 ∈ (processSection 1 ["- [ ] 2.1 Fix (files: a.ts)"]).1
      ∧ sectionMismatchError exMismatch.id 1
          ∈ (processSection 1 ["- [ ] 2.1 Fix (files: a.ts)"]).2.1
      ∧ (processMatch 1 exMismatch).1.id = exMismatch.id
      ∧ (processMatch 1 exMismatch).1.description = pyStrip exMismatch.description
      ∧ (processMatch 1 exMismatch).1.completed = exMismatch.completed) :=
  ⟨List.mem_singleton.mpr rfl, rfl, by decide,
    mismatched_task_recorded_and_kept 1 ["- [ ] 2.1 Fix (files: a.ts)"]
      "- [ ] 2.1 Fix (files: a.ts)" exMismatch (List.mem_singleton.mpr rfl) rfl
      (by decide)⟩

/-- The parsed task IDs are exactly the IDs of the matched task lines. -/
theorem parsedTaskIds_eq_matchedIds (content : String) :
    parsedTaskIds content = matchedIds content := by
  rw [parsedTaskIds, parse_tasks_md, matchedIds]
  by_cases hb : (splitSections (splitOnChar '\n' content)).isEmpty
  · rw [if_pos hb]
    rw [List.isEmpty_iff] at hb
    rw [hb]
    rfl
  · rw [if_neg hb]
    simp only [List.flatMap_map, List.map_flatMap, List.map_map]
    refine congrArg _ ?_
    funext blk
    simp only [processSection, List.map_map]
    rfl

/-- C8 counterexample: a document repeating the identifier `1.1` on two
matched task lines yields two `Task` records carrying the same identifier,
so the parser does not guarantee uniqueness. -/
theorem duplicate_ids_parsed :
    parsedTaskIds "## 1. A\n- [ ] 1.1 X (files: a.ts)\n- [ ] 1.1 Y (files: b.ts)"
      = ["1.1", "1.1"] := by rfl

/-- C8 (amended): the parser creates exactly one `Task` per matched task
line and performs no uniqueness check: the parsed identifiers are exactly
the matched lines' identifiers, so they are pairwise distinct precisely when
the document's matched task lines declare pairwise distinct identifiers. -/
theorem parser_ids_from_lines (content : String) :
    parsedTaskIds content = matchedIds content
    ∧ ((matchedIds content).Nodup → (parsedTaskIds content).Nodup) :=
  ⟨parsedTaskIds_eq_matchedIds content,
   fun h => (parsedTaskIds_eq_matchedIds content).symm ▸ h⟩

/-- C8 witness: a document with distinct matched IDs parses to distinct
task IDs. -/
theorem parser_ids_from_lines_witness :
    (matchedIds "## 1. S\n- [ ] 1.1 Do it (files: a.ts)").Nodup
    ∧ (parsedTaskIds "## 1. S\n- [ ] 1.1 Do it (files: a.ts)").Nodup :=
  ⟨by decide, (parser_ids_from_lines "## 1. S\n- [ ] 1.1 Do it (files: a.ts)").2 (by decide)⟩

/-- Every edge the keyword strategy emits comes from one loop combination:
an iterating task, one of its categories, a required category, and a
strictly earlier distinct dependency task. -/
theorem keyword_edges_shape {ts : List TaskIn} {out : List InferredDependency}
    (hok : infer_from_keywords ts = .ok out) {e : InferredDependency}
    (he : e ∈ out) :
    ∃ t ∈ ts, ∃ kw req depId,
      e = ⟨t.id, depId, 50, keywordReason kw req⟩
      ∧ depId ≠ t.id
      ∧ tupLt (task_id_sort_key depId) (task_id_sort_key t.id) = .ok true
      ∧ kw ∈ lookupD (taskKeywordsMap ts) t.id []
      ∧ req ∈ lookupD keyword_deps kw [] := by
  simp only [infer_from_keywords] at hok
  rcases (listFlatMapM_mem hok e).mp he with ⟨t, ht, la1, hf1, he1⟩
  rcases (listFlatMapM_mem hf1 e).mp he1 with ⟨kw, hkw, la2, hf2, he2⟩
  rcases (listFlatMapM_mem hf2 e).mp he2 with ⟨req, hreq, la3, hf3, he3⟩
  cases hfind : (keywordToTasksMap ts).find? (fun q => decide (q.1 = req)) with
  | none =>
    rw [hfind] at hf3
    cases hf3
    cases he3
  | some q =>
    rw [hfind] at hf3
    rcases (listFlatMapM_mem hf3 e).mp he3 with ⟨depId, hdep, la4, hf4, he4⟩
    rw [kwEdgeFor] at hf4
    by_cases hne : depId ≠ t.id
    · rw [if_pos hne] at hf4
      cases hcmp : tupLt (task_id_sort_key depId) (task_id_sort_key t.id) with
      | error er => rw [hcmp] at hf4; cases hf4
      | ok b =>
        rw [hcmp] at hf4
        cases b with
        | false =>
          cases hf4
          cases he4
        | true =>
          cases hf4
          rcases List.mem_singleton.mp he4 with rfl
          exact ⟨t, ht, kw, req, depId, rfl, hne, hcmp, hkw, hreq⟩
    · rw [if_neg hne] at hf4
      cases hf4
      cases he4

/-- C6: every keyword edge has confidence 50 and points from a task to a
strictly earlier (by sort key), distinct task — never a self-edge or a
forward edge; and a task whose only matched category is `test` contributes
no outgoing keyword edges, because `test` requires no categories. -/
theorem keyword_edges_earlier_only (ts : List TaskIn) (out : List InferredDependency)
    (hok : infer_from_keywords ts = .ok out)
    (hnd : (ts.map TaskIn.id).Nodup) :
    (∀ e ∈ out, e.confidence = 50 ∧ e.from_task ≠ e.to_task
      ∧ tupLt (task_id_sort_key e.to_task) (task_id_sort_key e.from_task) = .ok true)
    ∧ (∀ t ∈ ts, extract_keywords t.description = ["test"] →
        ∀ e ∈ out, e.from_task ≠ t.id) := by
  constructor
  · intro e he
    rcases keyword_edges_shape hok he with ⟨t, ht, kw, req, depId, rfl, hne, hcmp, -, -⟩
    exact ⟨rfl, fun h => hne h.symm, hcmp⟩
  · intro t ht htest e he hfrom
    rcases keyword_edges_shape hok he with ⟨t2, ht2, kw, req, depId, rfl, -, -, hkw, hreq⟩
    have hid : t2.id = t.id := hfrom
    have ht2t : t2 = t := nodup_map_inj_mem hnd ht2 ht hid
    subst ht2t
    rw [taskKeywordsMap_lookup ts hnd ht2, htest] at hkw
    rcases List.mem_singleton.mp hkw with rfl
    have : lookupD keyword_deps "test" [] = [] := rfl
    rw [this] at hreq
    cases hreq

/-- C6 witness: a schema task followed by a mutation task yields exactly one
keyword edge, satisfying the statement. -/
theorem keyword_edges_earlier_only_witness :
    infer_from_keywords exKwTasks = .ok exKwOut
    ∧ (exKwTasks.map TaskIn.id).Nodup
    ∧ ((∀ e ∈ exKwOut, e.confidence = 50 ∧ e.from_task ≠ e.to_task
        ∧ tupLt (task_id_sort_key e.to_task) (task_id_sort_key e.from_task) = .ok true)
      ∧ (∀ t ∈ exKwTasks, extract_keywords t.description = ["test"] →
          ∀ e ∈ exKwOut, e.from_task ≠ t.id)) :=
  ⟨rfl, by decide, keyword_edges_earlier_only exKwTasks exKwOut rfl (by decide)⟩

/-- C7: for a fixed parsed input the auto-apply bucket is antitone in the
threshold, and every deduplicated edge lands in `auto_apply` exactly when its
confidence reaches the threshold and in `pending_review` exactly when it
does not. -/
theorem threshold_partition_monotone (p : ParsedData) (t1 t2 : Int)
    (ds : List InferredDependency) (r1 r2 : InferResult)
    (hds : inferCandidates p = .ok ds)
    (h1 : infer_dependencies p t1 = .ok r1)
    (h2 : infer_dependencies p t2 = .ok r2)
    (hlt : t1 < t2) :
    (∀ e ∈ r2.auto_apply, e ∈ r1.auto_apply)
    ∧ (∀ e ∈ dedup ds,
        (e ∈ r1.auto_apply ↔ t1 ≤ e.confidence)
        ∧ (e ∈ r1.pending_review ↔ e.confidence < t1)) := by
  rw [infer_dependencies, hds] at h1 h2
  cases h1
  cases h2
  constructor
  · intro e he
    rcases List.mem_filter.mp he with ⟨hmem, hdec⟩
    refine List.mem_filter.mpr ⟨hmem, ?_⟩
    simp only [decide_eq_true_eq] at hdec ⊢
    omega
  · intro e he
    constructor
    · rw [List.mem_filter]
      simp [he]
    · rw [List.mem_filter]
      simp only [he, true_and, Bool.not_eq_true', decide_eq_false_iff_not]
      omega

/-- C7 witness: the statement at thresholds 40 < 95 on a two-task input. -/
theorem threshold_partition_monotone_witness :
    inferCandidates exParsed = .ok exParsedCands
    ∧ infer_dependencies exParsed 40
        = .ok ⟨[⟨"1.2", "1.1", 90, subsectionReason "1"⟩], []⟩
    ∧ infer_dependencies exParsed 95
        = .ok ⟨[], [⟨"1.2", "1.1", 90, subsectionReason "1"⟩]⟩
    ∧ ((40 : Int) < 95)
    ∧ ((∀ e ∈ (InferResult.mk [] [⟨"1.2", "1.1", 90, subsectionReason "1"⟩]).auto_apply,
          e ∈ (InferResult.mk [⟨"1.2", "1.1", 90, subsectionReason "1"⟩] []).auto_apply)
      ∧ (∀ e ∈ dedup exParsedCands,
          (e ∈ (InferResult.mk [⟨"1.2", "1.1", 90, subsectionReason "1"⟩] []).auto_apply
            ↔ (40 : Int) ≤ e.confidence)
          ∧ (e ∈ (InferResult.mk [⟨"1.2", "1.1", 90, subsectionReason "1"⟩] []).pending_review
            ↔ e.confidence < (40 : Int)))) :=
  ⟨rfl, rfl, rfl, by decide,
    threshold_partition_monotone exParsed 40 95 exParsedCands
      ⟨[⟨"1.2", "1.1", 90, subsectionReason "1"⟩], []⟩
      ⟨[], [⟨"1.2", "1.1", 90, subsectionReason "1"⟩]⟩
      rfl rfl rfl (by decide)⟩

/-- C3: after merging the four strategies' candidates (in the fixed order
subsection, file-pattern, keyword, section-order), the output holds at most
one edge per ordered pair; each surviving edge is the first-seen candidate
of maximal confidence for its pair (reason string included), and every
candidate's pair survives. -/
theorem merge_dedup_max_first (p : ParsedData) (t : Int)
    (ds : List InferredDependency) (r : InferResult)
    (hds : inferCandidates p = .ok ds)
    (hok : infer_dependencies p t = .ok r) :
    ((r.auto_apply ++ r.pending_review).map depKey).Nodup
    ∧ (∀ e, e ∈ r.auto_apply ++ r.pending_review ↔ e ∈ dedup ds)
    ∧ (∀ e ∈ dedup ds, firstMax (candidatesFor (depKey e) ds) = some e)
    ∧ (∀ d ∈ ds, ∃ e ∈ dedup ds, depKey e = depKey d) := by
  rw [infer_dependencies, hds] at hok
  cases hok
  refine ⟨?_, ?_, fun e he => dedup_mem_firstMax ds he,
    fun d hd => dedup_complete ds hd⟩
  · rw [List.map_append]
    refine List.nodup_append.mpr ⟨?_, ?_, ?_⟩
    · exact (dedup_keys_nodup ds).sublist ((List.filter_sublist _).map depKey)
    · exact (dedup_keys_nodup ds).sublist ((List.filter_sublist _).map depKey)
    · intro k hk1 hk2
      rcases List.mem_map.mp hk1 with ⟨e1, he1, rfl⟩
      rcases List.mem_map.mp hk2 with ⟨e2, he2, hkeq⟩
      rcases List.mem_filter.mp he1 with ⟨hm1, hd1⟩
      rcases List.mem_filter.mp he2 with ⟨hm2, hd2⟩
      have : e1 = e2 := nodup_map_inj_mem (dedup_keys_nodup ds) hm1 hm2 hkeq.symm
      subst this
      rw [hd1] at hd2
      cases hd2
  · intro e
    simp only [List.mem_append]
    constructor
    · rintro (h | h) <;> exact (List.mem_filter.mp h).1
    · intro h
      by_cases hc : decide (t ≤ e.confidence) = true
      · exact Or.inl (List.mem_filter.mpr ⟨h, hc⟩)
      · exact Or.inr (List.mem_filter.mpr ⟨h, by simpa using hc⟩)

/-- C3 witness: the subsection edge (confidence 90) beats the keyword edge
(confidence 50) for the same ordered pair. -/
theorem merge_dedup_max_first_witness :
    inferCandidates exParsed = .ok exParsedCands
    ∧ infer_dependencies exParsed 70
        = .ok ⟨[⟨"1.2", "1.1", 90, subsectionReason "1"⟩], []⟩
    ∧ (((InferResult.mk [⟨"1.2", "1.1", 90, subsectionReason "1"⟩] []).auto_apply
          ++ (InferResult.mk [⟨"1.2", "1.1", 90, subsectionReason "1"⟩] []).pending_review).map
            depKey).Nodup
    ∧ (∀ e ∈ dedup exParsedCands,
        firstMax (candidatesFor (depKey e) exParsedCands) = some e) :=
  ⟨rfl, rfl,
    (merge_dedup_max_first exParsed 70 exParsedCands
      ⟨[⟨"1.2", "1.1", 90, subsectionReason "1"⟩], []⟩ rfl rfl).1,
    (merge_dedup_max_first exParsed 70 exParsedCands
      ⟨[⟨"1.2", "1.1", 90, subsectionReason "1"⟩], []⟩ rfl rfl).2.2.1⟩

/-! ## Lemmas: subsection and stem groups -/

theorem subsectionGroup_key {ts : List TaskIn} {k y : String}
    (hy : y ∈ subsectionGroup ts k) : get_subsection_key y = k := by
  rw [subsectionGroup] at hy
  rcases List.mem_map.mp hy with ⟨q, hq, rfl⟩
  rcases List.mem_filter.mp hq with ⟨hq2, hq3⟩
  rcases List.mem_map.mp hq2 with ⟨t, ht, rfl⟩
  simpa using hq3

theorem mem_subsectionGroup_self {ts : List TaskIn} {a : String}
    (ha : a ∈ ts.map TaskIn.id) : a ∈ subsectionGroup ts (get_subsection_key a) := by
  rcases List.mem_map.mp ha with ⟨t, ht, rfl⟩
  rw [subsectionGroup]
  refine List.mem_map.mpr ⟨(get_subsection_key t.id, t.id), ?_, rfl⟩
  refine List.mem_filter.mpr ⟨List.mem_map_of_mem _ ht, by simp⟩

theorem group_nonempty_key_mem {pairs : List (String × String)} {k : String}
    (h : ((pairs.filter (fun q => decide (q.1 = k))).map Prod.snd) ≠ []) :
    k ∈ pairs.map Prod.fst := by
  rcases List.exists_mem_of_ne_nil _ h with ⟨y, hy⟩
  rcases List.mem_map.mp hy with ⟨q, hq, -⟩
  rcases List.mem_filter.mp hq with ⟨hq2, hq3⟩
  have hk : q.1 = k := by simpa using hq3
  exact hk ▸ List.mem_map_of_mem Prod.fst hq2

/-- C2: within the subsection-order strategy, the edge `b → a` (confidence
90) is emitted exactly when `a` immediately precedes `b` in the sorted group
of their common subsection, and a subsection group with fewer than two tasks
contributes no edges at all. -/
theorem subsection_order_adjacency (ts : List TaskIn) (out : List InferredDependency)
    (a b : String)
    (hok : infer_from_subsection_order ts = .ok out)
    (ha : a ∈ ts.map TaskIn.id) (hb : b ∈ ts.map TaskIn.id)
    (hsub : get_subsection_key a = get_subsection_key b)
    (hlt : tupLt (task_id_sort_key a) (task_id_sort_key b) = .ok true) :
    (∃ l, sortByKeyE (subsectionGroup ts (get_subsection_key a)) = .ok l
      ∧ (InferredDependency.mk b a 90 (subsectionReason (get_subsection_key a)) ∈ out
          ↔ adjacentIn a b l))
    ∧ (∀ k, (subsectionGroup ts k).length < 2 →
        ∀ e ∈ out, get_subsection_key e.from_task ≠ k) := by
  simp only [infer_from_subsection_order] at hok
  have hab : a ≠ b := by
    intro h
    rw [h, tupLt_self] at hlt
    cases hlt
  have hga : a ∈ subsectionGroup ts (get_subsection_key a) := mem_subsectionGroup_self ha
  have hgb : b ∈ subsectionGroup ts (get_subsection_key a) := by
    rw [hsub]
    exact mem_subsectionGroup_self hb
  have hlen : 2 ≤ (subsectionGroup ts (get_subsection_key a)).length :=
    two_mem_length_ge hga hgb hab
  have hkmem : get_subsection_key a
      ∈ (ts.map (fun t => (get_subsection_key t.id, t.id))).map Prod.fst := by
    rcases List.mem_map.mp ha with ⟨t, ht, rfl⟩
    exact List.mem_map.mpr ⟨(get_subsection_key t.id, t.id),
      List.mem_map_of_mem _ ht, rfl⟩
  have hgrp : (get_subsection_key a, subsectionGroup ts (get_subsection_key a))
      ∈ groupIds (ts.map (fun t => (get_subsection_key t.id, t.id))) :=
    (groupIds_mem_char _ _ _).mpr ⟨hkmem, rfl⟩
  rcases listFlatMapM_ok_of_mem hok _ hgrp with ⟨la, hla⟩
  rw [if_neg (show ¬ (subsectionGroup ts (get_subsection_key a)).length < 2 by omega)] at hla
  have hsortOk : ∃ l, sortByKeyE (subsectionGroup ts (get_subsection_key a)) = .ok l := by
    cases hs : sortByKeyE (subsectionGroup ts (get_subsection_key a)) with
    | error er => rw [hs] at hla; cases hla
    | ok l => exact ⟨l, rfl⟩
  rcases hsortOk with ⟨l, hsort⟩
  rw [hsort] at hla
  cases hla
  constructor
  · refine ⟨l, hsort, ?_⟩
    constructor
    · intro hmem
      rcases (listFlatMapM_mem hok _).mp hmem with ⟨kg, hkg, la2, hla2, hmem2⟩
      obtain ⟨k2, g2⟩ := kg
      rcases (groupIds_mem_char _ _ _).mp hkg with ⟨-, hg2⟩
      by_cases hlen2 : g2.length < 2
      · rw [if_pos hlen2] at hla2
        cases hla2
        cases hmem2
      · rw [if_neg hlen2] at hla2
        cases hs2 : sortByKeyE g2 with
        | error er => rw [hs2] at hla2; cases hla2
        | ok l2 =>
          rw [hs2] at hla2
          cases hla2
          rcases (consecEdges_mem _ _ _).mp hmem2 with ⟨i, a2, b2, hia, hib, heq⟩
          rw [InferredDependency.mk.injEq] at heq
          obtain ⟨hb2, ha2, -, -⟩ := heq
          subst hb2
          subst ha2
          have hbmem : b ∈ l2 := mem_of_getElem?_eq hib
          have hbg2 : b ∈ g2 := (sortByKeyE_ok_mem hs2 b).mp hbmem
          have hk2 : k2 = get_subsection_key a := by
            have : get_subsection_key b = k2 := by
              refine @subsectionGroup_key ts k2 b ?_
              rw [subsectionGroup]
              exact hg2 ▸ hbg2
            rw [← this, hsub]
          subst hk2
          have hg2eq : g2 = subsectionGroup ts (get_subsection_key a) := hg2
          rw [hg2eq, hsort] at hs2
          cases hs2
          exact ⟨i, hia, hib⟩
    · rintro ⟨i, hia, hib⟩
      refine (listFlatMapM_mem hok _).mpr
        ⟨(get_subsection_key a, subsectionGroup ts (get_subsection_key a)), hgrp,
          consecEdges (get_subsection_key a) l, ?_, ?_⟩
      · rw [if_neg (show ¬ (subsectionGroup ts (get_subsection_key a)).length < 2 by omega),
          hsort]
      · exact (consecEdges_mem _ _ _).mpr ⟨i, a, b, hia, hib, rfl⟩
  · intro k0 hk0 e he
    rcases (listFlatMapM_mem hok _).mp he with ⟨kg, hkg, la2, hla2, hmem2⟩
    obtain ⟨k2, g2⟩ := kg
    rcases (groupIds_mem_char _ _ _).mp hkg with ⟨-, hg2⟩
    by_cases hlen2 : g2.length < 2
    · rw [if_pos hlen2] at hla2
      cases hla2
      cases hmem2
    · rw [if_neg hlen2] at hla2
      cases hs2 : sortByKeyE g2 with
      | error er => rw [hs2] at hla2; cases hla2
      | ok l2 =>
        rw [hs2] at hla2
        cases hla2
        rcases (consecEdges_mem _ _ _).mp hmem2 with ⟨i, a2, b2, hia, hib, heq⟩
        subst heq
        intro hkey
        have hbmem : b2 ∈ l2 := mem_of_getElem?_eq hib
        have hbg2 : b2 ∈ g2 := (sortByKeyE_ok_mem hs2 b2).mp hbmem
        have hk2 : get_subsection_key b2 = k2 := by
          refine @subsectionGroup_key ts k2 b2 ?_
          rw [subsectionGroup]
          exact hg2 ▸ hbg2
      -- from_task of the edge is b2
        have hkk : k2 = k0 := by
          rw [← hk2]
          exact hkey
        subst hkk
        have hgeq : g2 = subsectionGroup ts k2 := hg2
        rw [hgeq] at hlen2
        exact hlen2 hk0

/-- C2 witness: three tasks `1.1`, `1.2`, `1.3` in subsection `1`; the edge
`1.2 → 1.1` is present and `1.1`, `1.2` are adjacent in the sorted group. -/
theorem subsection_order_adjacency_witness :
    infer_from_subsection_order exSubTasks = .ok exSubOut
    ∧ "1.1" ∈ exSubTasks.map TaskIn.id
    ∧ ((∃ l, sortByKeyE (subsectionGroup exSubTasks (get_subsection_key "1.1")) = .ok l
        ∧ (InferredDependency.mk "1.2" "1.1" 90
              (subsectionReason (get_subsection_key "1.1")) ∈ exSubOut
            ↔ adjacentIn "1.1" "1.2" l))
      ∧ (∀ k, (subsectionGroup exSubTasks k).length < 2 →
          ∀ e ∈ exSubOut, get_subsection_key e.from_task ≠ k)) :=
  ⟨rfl, by decide,
    subsection_order_adjacency exSubTasks exSubOut "1.1" "1.2" rfl (by decide)
      (by decide) rfl rfl⟩

/-- C5 counterexample: a single task listing two files with the same stem
produces a self-edge `1.1 → 1.1` with confidence 85, so the strategy does
emit self-edges and does not require two distinct tasks. -/
theorem file_pattern_self_edge :
    infer_from_file_patterns [⟨"1.1", "", ["a.ts", "a.js"]⟩]
      = .ok [⟨"1.1", "1.1", 85, filePatternReason "a"⟩] := rfl

/-- C5 (amended): an edge is emitted by the file-stem strategy exactly when,
for some stem `s`, the sorted list of task-ID occurrences for `s` (one
occurrence per listed file, so a task may occur twice) has length at least 2
and the edge runs from a later occurrence to a strictly earlier one, with
confidence 85; nothing else is emitted. -/
theorem file_pattern_edges_characterization (ts : List TaskIn)
    (out : List InferredDependency)
    (hok : infer_from_file_patterns ts = .ok out) (e : InferredDependency) :
    e ∈ out ↔
      ∃ s l, sortByKeyE (stemOccurrences ts s) = .ok l ∧ 2 ≤ l.length
        ∧ ∃ (i j : Nat), j < i ∧ l[i]? = some e.from_task ∧ l[j]? = some e.to_task
          ∧ e.confidence = 85 ∧ e.reason = filePatternReason s := by
  simp only [infer_from_file_patterns] at hok
  constructor
  · intro he
    rcases (listFlatMapM_mem hok _).mp he with ⟨kg, hkg, la, hla, hmem⟩
    obtain ⟨s2, g2⟩ := kg
    rcases (groupIds_mem_char _ _ _).mp hkg with ⟨-, hg2⟩
    by_cases hlen : g2.length > 1
    · rw [if_pos hlen] at hla
      cases hs2 : sortByKeyE g2 with
      | error er => rw [hs2] at hla; cases hla
      | ok l2 =>
        rw [hs2] at hla
        cases hla
        rcases (fanInEdges_mem _ _ _).mp hmem with ⟨i, j, f, t, hji, hif, hjt, heq⟩
        subst heq
        have hgeq : g2 = stemOccurrences ts s2 := hg2
        rw [hgeq] at hs2
        refine ⟨s2, l2, hs2, ?_, i, j, hji, hif, hjt, rfl, rfl⟩
        rcases List.getElem?_eq_some.mp hif with ⟨hilen, -⟩
        omega
    · rw [if_neg hlen] at hla
      cases hla
      cases hmem
  · rintro ⟨s, l, hsort, hlen, i, j, hji, hif, hjt, hconf, hreason⟩
    have hgne : stemOccurrences ts s ≠ [] := by
      intro h
      rw [h, show sortByKeyE [] = Except.ok ([] : List String) from rfl] at hsort
      cases hsort
      simp at hlen
    have hkmem : s ∈ (ts.flatMap
        (fun t => t.files.map (fun f => (extract_stem f, t.id)))).map Prod.fst :=
      group_nonempty_key_mem hgne
    have hgrp : (s, stemOccurrences ts s)
        ∈ groupIds (ts.flatMap (fun t => t.files.map (fun f => (extract_stem f, t.id)))) :=
      (groupIds_mem_char _ _ _).mpr ⟨hkmem, rfl⟩
    have hglen : (stemOccurrences ts s).length = l.length :=
      (sortByKeyE_ok_length hsort).symm
    refine (listFlatMapM_mem hok _).mpr
      ⟨(s, stemOccurrences ts s), hgrp, fanInEdges s l, ?_, ?_⟩
    · rw [if_pos (show (stemOccurrences ts s).length > 1 by omega), hsort]
    · refine (fanInEdges_mem _ _ _).mpr
        ⟨i, j, e.from_task, e.to_task, hji, hif, hjt, ?_⟩
      cases e
      simp only at hconf hreason
      simp [hconf, hreason]

/-- C5 witness: two tasks sharing the stem `user` produce the edge
`2.2 → 2.1`, matching the characterization. -/
theorem file_pattern_edges_characterization_witness :
    infer_from_file_patterns exStemTasks = .ok exStemOut
    ∧ (InferredDependency.mk "2.2" "2.1" 85 (filePatternReason "user") ∈ exStemOut ↔
        ∃ s l, sortByKeyE (stemOccurrences exStemTasks s) = .ok l ∧ 2 ≤ l.length
          ∧ ∃ (i j : Nat), j < i
            ∧ l[i]? = some (InferredDependency.mk "2.2" "2.1" 85
                (filePatternReason "user")).from_task
            ∧ l[j]? = some (InferredDependency.mk "2.2" "2.1" 85
                (filePatternReason "user")).to_task
            ∧ (InferredDependency.mk "2.2" "2.1" 85
                (filePatternReason "user")).confidence = 85
            ∧ (InferredDependency.mk "2.2" "2.1" 85
                (filePatternReason "user")).reason = filePatternReason s) :=
  ⟨rfl, file_pattern_edges_characterization exStemTasks exStemOut rfl
    (InferredDependency.mk "2.2" "2.1" 85 (filePatternReason "user"))⟩

end Svao
